import Mathlib

/-!
Verification of the Legion MCTS fuzzer core (`Legion.py`) against its
natural-language specification.

The search tree is embedded as an arena: nodes are stored in a list and
referenced by their index, mirroring the Python object graph (each `TreeNode`
has a `parent` pointer and a `children` dict).  Python's `children` dict holds
integer keys (block children) and the string key `"Simulation"`; these are
modelled by the `blockChildren` association list and the `simChild` field.
Operations that can raise in Python (failed `debug_assertion`, `KeyError`,
`AttributeError` on `None`, unbounded loops) return `Option`, with `none`
marking the raising/diverging executions.  Recursions whose termination is not
structural in the source (walking `parent` pointers, the symbolic-execution
loop) take an explicit fuel argument.
-/

namespace Legion

/-- Colour of tree nodes (`class Colour(enum.Enum)`). -/
inductive Colour where
  | W | R | G | B
deriving DecidableEq, Repr

/-- Abstract symbolic state (angr `SimState`).  Only the fields the core
inspects are kept: the basic-block address `addr`, a discriminating identifier
`sid`, the bit-size of the symbolic stdin (`state.posix.stdin.size`, used for
the byte-width computation), and the lazy solver stream produced by
`state.solver.iterate` (a `none` element models the `⊥`/"would need another
solver call" marker; the end of the list models `StopIteration`). -/
structure SymState where
  addr : Int
  sid : Nat := 0
  stdinBits : Nat := 0
  sampleStream : List (Option Nat) := []
deriving DecidableEq, Repr

/-- `TreeNode.__init__`: every field with its initial value. -/
structure TreeNode where
  addr : Int := -1
  parent : Option Nat := none
  blockChildren : List (Int × Nat) := []
  simChild : Option Nat := none
  colour : Colour := .W
  phantom : Bool := false
  state : Option SymState := none
  samples : Option (List (Option Nat)) := none
  sel_try : Nat := 0
  sel_win : Nat := 0
  sim_try : Nat := 0
  sim_win : Nat := 0
  accumulated_time : ℚ := 0
  fully_explored : Bool := false
deriving DecidableEq, Repr

/-- The arena of nodes; a node's identifier is its index.  The root is node 0
(the Python global `ROOT`). -/
structure Tree where
  nodes : List TreeNode
deriving DecidableEq, Repr

def Tree.size (t : Tree) : Nat := t.nodes.length

def Tree.get (t : Tree) (i : Nat) : TreeNode := t.nodes.getD i {}

def Tree.set (t : Tree) (i : Nat) (n : TreeNode) : Tree := ⟨t.nodes.set i n⟩

def Tree.modify (t : Tree) (i : Nat) (f : TreeNode → TreeNode) : Tree :=
  t.set i (f (t.get i))

def Tree.push (t : Tree) (n : TreeNode) : Tree := ⟨t.nodes ++ [n]⟩

/-- Lookup of `self.children.get(addr)` restricted to block (integer) keys. -/
def lookupChild (n : TreeNode) (a : Int) : Option Nat :=
  (n.blockChildren.find? (fun pr => pr.1 = a)).map (·.2)

/-- `self.children[key] = child` for an integer key (Python dict assignment:
replace the entry if the key is present, append otherwise). -/
def setChildKey (n : TreeNode) (a : Int) (c : Nat) : TreeNode :=
  if (n.blockChildren.find? (fun pr => pr.1 = a)).isSome then
    { n with blockChildren :=
        n.blockChildren.map (fun pr => if pr.1 = a then (a, c) else pr) }
  else
    { n with blockChildren := n.blockChildren ++ [(a, c)] }

/-- All child identifiers, block children first, then the `"Simulation"`
child — the same collection `self.children.values()` iterates over. -/
def childIds (n : TreeNode) : List Nat :=
  n.blockChildren.map (·.2) ++ n.simChild.toList

/-- `TreeNode.sim_state`: a red node's state lives in its simulation child,
a white node has none, black/gold nodes store their own. -/
def Tree.simState (t : Tree) (i : Nat) : Option SymState :=
  let n := t.get i
  if n.colour = .R then
    match n.simChild with
    | some g => (t.get g).state
    | none => none
  else n.state

/-- The `all([c.fully_explored for c in self.children.values()
if c.colour is not Colour.G])` test in `mark_fully_explored`. -/
def allNonGoldFE (t : Tree) (n : TreeNode) : Bool :=
  (childIds n).all (fun c => (t.get c).colour = .G || (t.get c).fully_explored)

/-- The two flag assignments performed when `mark_fully_explored` decides to
mark node `i`: set `i.fully_explored`, and if `i` is red also set its
`"Simulation"` child's flag (`self.children['Simulation'].fully_explored =
True`; a red node without a simulation child would raise `KeyError`). -/
def markStep (t : Tree) (i : Nat) : Option Tree :=
  let t1 := t.modify i (fun m => { m with fully_explored := true })
  if (t.get i).colour = .R then
    match (t.get i).simChild with
    | some g => some (t1.modify g (fun m => { m with fully_explored := true }))
    | none => none
  else some t1

/-- `TreeNode.mark_fully_explored`.  The recursion climbs `parent` pointers,
which is not structurally decreasing on the arena, hence the fuel. -/
def markFE : Nat → Tree → Nat → Option Tree
  | 0, _, _ => none
  | fuel + 1, t, i =>
    let n := t.get i
    if n.colour = .W then some t
    else if ¬ allNonGoldFE t n then some t
    else if n.sel_try = 0 ∧ n.colour = .R then some t
    else
      match markStep t i with
      | none => none
      | some t2 =>
        match n.parent with
        | some p => markFE fuel t2 p
        | none => some t2

/-- The non-red branch of `TreeNode.dye`: set the colour and attach state and
samples. -/
def dyeLeaf (t : Tree) (i : Nat) (c : Colour) (st : Option SymState)
    (sm : Option (List (Option Nat))) : Tree :=
  t.modify i (fun n => { n with colour := c, state := st, samples := sm })

/-- `TreeNode.dye`.  Guards are the two `debug_assertion`s and, in the red
branch, the `'Simulation' not in self.children` assertion.  The recursive call
`self.children['Simulation'].dye(colour=Colour.G, ...)` on the freshly created
white child is inlined: since `Colour.G` is not `Colour.R` it reduces to the
leaf assignment (its own two assertions hold because the fresh child is white
and the outer guard already checked the state argument). -/
def dye (t : Tree) (i : Nat) (c : Colour) (st : Option SymState)
    (sm : Option (List (Option Nat))) : Option Tree :=
  if (t.get i).colour ≠ .W then none
  else if ¬ (c = .B ∨ st.isSome) then none
  else if c = .R then
    if (t.get i).simChild.isSome then none
    else
      let gid := t.size
      let t1 := t.push { addr := (t.get i).addr, parent := some i }
      let t2 := t1.modify i (fun n => { n with colour := .R, simChild := some gid })
      some (dyeLeaf t2 gid .G st sm)
  else
    some (dyeLeaf t i c st sm)

/-- `TreeNode.match_child`: returns (is-new-path bit, the matched or created
child, the updated tree).  An existing child yields its `phantom` flag (which
is then cleared); a missing one is created white. -/
def matchChild (t : Tree) (i : Nat) (a : Int) : Bool × Nat × Tree :=
  match lookupChild (t.get i) a with
  | some c =>
    ((t.get c).phantom, c, t.modify c (fun n => { n with phantom := false }))
  | none =>
    let cid := t.size
    let t1 := t.push { addr := a, parent := some i }
    (true, cid, t1.modify i (fun n => setChildKey n a cid))

/-- The walk of `integrate_path` over `trace[1:]`, accumulating
`is_new = is_new or new_child` and returning the terminal node. -/
def walkTrace (t : Tree) (i : Nat) : List Int → Bool × Nat × Tree
  | [] => (false, i, t)
  | a :: rest =>
    let r := matchChild t i a
    let r2 := walkTrace r.2.2 r.2.1 rest
    (r.1 || r2.1, r2.2.1, r2.2.2)

/-- `integrate_path`.  `none` models the `IndexError` on an empty trace and
the failing `debug_assertion(trace[0] == ROOT.addr)`.  After the walk the
new-path bit also fires when the terminal node was never simulated
(`is_new or not node.sim_try`), and the terminal `sim_try` is clamped to at
least 1 (`node.sim_try = node.sim_try if node.sim_try else 1`). -/
def integratePath (t : Tree) (trace : List Int) : Option (Bool × Tree) :=
  match trace with
  | [] => none
  | a :: rest =>
    if a ≠ (t.get 0).addr then none
    else
      let r := walkTrace t 0 rest
      let isNew := r.1 || ((r.2.2.get r.2.1).sim_try == 0)
      let t2 := r.2.2.modify r.2.1
        (fun n => { n with sim_try := if n.sim_try = 0 then 1 else n.sim_try })
      some (isNew, t2)

/-- The `while child_states and target.addr not in [...]` loop of
`symex_to_match`, parameterised by the single-step function `symex`
(`state.step().successors`).  `none` models both the failing
`debug_assertion(len(child_states) == 1)` and a non-terminating descent
(fuel exhaustion). -/
def symexLoop (symex : SymState → List SymState) :
    Nat → Int → List SymState → Option (List SymState)
  | fuel, a, states =>
    if a ∈ states.map (·.addr) then some states
    else
      match states with
      | [] => some []
      | [s] =>
        match fuel with
        | 0 => none
        | fuel' + 1 => symexLoop symex fuel' a (symex s)
      | _ => none

/-- `symex_to_match`: step from the parent's symbolic state until the target's
address shows up among the successors (descending through forced singletons).
`none` also covers a `target` without parent (`AttributeError`) and a parent
whose relevant state is `None` (`None.step()`). -/
def symexToMatch (symex : SymState → List SymState) (fuel : Nat) (t : Tree)
    (target : Nat) : Option (List SymState) :=
  match (t.get target).parent with
  | none => none
  | some p =>
    match t.simState p with
    | none => none
    | some s => symexLoop symex fuel (t.get target).addr (symex s)

/-- The `[node for node in child.parent.children.values() if node.colour is
not Colour.G]` list, recomputed at each iteration of the dyeing loop. -/
def nonGoldChildren (t : Tree) (p : Nat) : List Nat :=
  (childIds (t.get p)).filter (fun c => (t.get c).colour ≠ .G)

/-- `match_node_states`: try to match the state against each child in turn;
the first child with the same address is dyed red with the state. -/
def matchNodeStates (t : Tree) (st : SymState) :
    List Nat → Option (Bool × Tree)
  | [] => some (false, t)
  | c :: rest =>
    if (t.get c).addr = st.addr then
      (dye t c .R (some st) none).map (fun t' => (true, t'))
    else matchNodeStates t st rest

/-- `add_phantom`: guard = `debug_assertion(state.addr not in
parent.children)`; create the child, dye it red with the state, raise its
`phantom` flag. -/
def addPhantom (t : Tree) (p : Nat) (st : SymState) : Option Tree :=
  if (lookupChild (t.get p) st.addr).isSome then none
  else
    let cid := t.size
    let t1 := t.push { addr := st.addr, parent := some p }
    let t2 := t1.modify p (fun n => setChildKey n st.addr cid)
    (dye t2 cid .R (some st) none).map
      (fun t3 => t3.modify cid (fun n => { n with phantom := true }))

/-- The `for state in sibling_states` loop of the diverging branch of
`dye_siblings`. -/
def dyeStates (p : Nat) : Tree → List SymState → Option Tree
  | t, [] => some t
  | t, st :: rest =>
    match matchNodeStates t st (nonGoldChildren t p) with
    | none => none
    | some (matched, t1) =>
      match (if matched then some t1 else addPhantom t1 p st) with
      | none => none
      | some t2 => dyeStates p t2 rest

/-- The `if not sibling_states` branch of `dye_siblings`: no state was found,
so mark the white child fully explored and propagate from its parent
(`child.parent.mark_fully_explored()`; a missing parent would raise). -/
def dyeEmpty (fuel : Nat) (t : Tree) (child : Nat) : Option Tree :=
  let tf := t.modify child (fun n => { n with fully_explored := true })
  match (tf.get child).parent with
  | some p => markFE fuel tf p
  | none => none

/-- The `len(sibling_states) == 1` branch of `dye_siblings`: the only state
must match the child (`debug_assertion(child.addr == state.addr)`), which is
dyed black with it. -/
def dyeSingle (t : Tree) (child : Nat) (st : SymState) : Option Tree :=
  if (t.get child).addr = st.addr then dye t child .B (some st) none
  else none

/-- The `len(sibling_states) > 1` branch of `dye_siblings`: dye each state
into a matching sibling or a fresh phantom, then check the final
`debug_assertion(all(sibling.colour is Colour.R ...))`. -/
def dyeDiverge (t : Tree) (child : Nat) (sibStates : List SymState) :
    Option Tree :=
  match (t.get child).parent with
  | none => none
  | some p =>
    match dyeStates p t sibStates with
    | none => none
    | some t3 =>
      if (nonGoldChildren t3 p).all (fun c => (t3.get c).colour = .R)
      then some t3 else none

/-- `dye_siblings`.  The three stopping cases of `symex_to_match` are handled
by the three sequential `if` statements (`if not sibling_states`,
`if len(...) == 1`, `if len(...) > 1`), which are mutually exclusive. -/
def dyeSiblings (symex : SymState → List SymState) (fuel : Nat) (t : Tree)
    (child : Nat) : Option Tree :=
  match symexToMatch symex fuel t child with
  | none => none
  | some sibStates =>
    match (if sibStates.isEmpty then dyeEmpty fuel t child else some t) with
    | none => none
    | some t1 =>
      match (if h : sibStates.length = 1 then
          dyeSingle t1 child
            (sibStates.head (by simp [← List.length_pos_iff_ne_nil, h]))
        else some t1) with
      | none => none
      | some t2 =>
        if sibStates.length > 1 then dyeDiverge t2 child sibStates
        else some t2

/-- The sample-collecting `while len(results) < MAX_SAMPLES` loop of
`app_fuzzing`.  Returns the collected byte strings, the unconsumed rest of
the solver stream, and whether `StopIteration` was reached.  `none` models
the `OverflowError` of `val.to_bytes` when a value does not fit. -/
def appLoop (maxS minS byteLen : Nat) :
    List (Option Nat) → List (List Nat) →
    Option (List (List Nat) × List (Option Nat) × Bool)
  | samples, results =>
    if results.length ≥ maxS then some (results, samples, false)
    else
      match samples with
      | [] => some (results, [], true)
      | none :: rest =>
        if results.length ≥ minS then some (results, rest, false)
        else appLoop maxS minS byteLen rest results
      | some v :: rest =>
        if v < 256 ^ byteLen then
          appLoop maxS minS byteLen rest
            (results ++ [(List.range byteLen).map
              (fun k => v / 256 ^ (byteLen - 1 - k) % 256)])
        else none

/-- `TreeNode.app_fuzzing`.  The byte width is `(target.size() + 7) // 8`; the
solver stream is initialised from the state on first use (`if not
self.samples`) and persisted on the node afterwards; stream exhaustion marks
the node fully explored and propagates. -/
def appFuzzing (maxS minS fuel : Nat) (t : Tree) (i : Nat) :
    Option (List (List Nat) × Tree) :=
  match (t.get i).state with
  | none => none
  | some s =>
    let byteLen := (s.stdinBits + 7) / 8
    let samples := ((t.get i).samples).getD s.sampleStream
    match appLoop maxS minS byteLen samples [] with
    | none => none
    | some (results, remaining, exhausted) =>
      let t1 := t.modify i (fun m => { m with samples := some remaining })
      if exhausted then
        let t2 := t1.modify i (fun m => { m with fully_explored := true })
        match markFE fuel t2 i with
        | none => none
        | some t3 => some (results, t3)
      else some (results, t1)

/-- `record_simulation`: bump the node's `sim_win` (by the new-path bit) and
`sim_try`, and the `sim_try` of its `"Simulation"` child when present. -/
def recordSimulation (t : Tree) (i : Nat) (isNew : Bool) : Tree :=
  let t1 := t.modify i (fun n =>
    { n with sim_win := n.sim_win + (if isNew then 1 else 0),
             sim_try := n.sim_try + 1 })
  match (t1.get i).simChild with
  | some g => t1.modify g (fun n => { n with sim_try := n.sim_try + 1 })
  | none => t1

/-- The walk of `propagate_execution_trace` over `trace[1:]`
(`node = node.children[addr]` then `record_simulation(node)`); `none` models
the `KeyError` on a missing child. -/
def walkRecord (isNew : Bool) (t : Tree) (i : Nat) :
    List Int → Option (Nat × Tree)
  | [] => some (i, t)
  | a :: rest =>
    match lookupChild (t.get i) a with
    | none => none
    | some c => walkRecord isNew (recordSimulation t c isNew) c rest

/-- `propagate_execution_trace`: record the root, walk the tail recording
every visited node, and finally `mark_fully_explored` the terminal node. -/
def propagateExecutionTrace (fuel : Nat) (t : Tree) (trace : List Int)
    (isNew : Bool) : Option Tree :=
  match trace with
  | [] => none
  | a :: rest =>
    if a ≠ (t.get 0).addr then none
    else
      match walkRecord isNew (recordSimulation t 0 isNew) 0 rest with
      | none => none
      | some (term, t2) => markFE fuel t2 term

/-- `propagate_execution_traces` over the zipped `(trace, is_new)` pairs
(the source asserts the two lists have equal length and iterates them in
lockstep). -/
def propagateExecutionTraces (fuel : Nat) :
    Tree → List (List Int × Bool) → Option Tree
  | t, [] => some t
  | t, (tr, b) :: rest =>
    match propagateExecutionTrace fuel t tr b with
    | none => none
    | some t1 => propagateExecutionTraces fuel t1 rest

/-- `propagate_selection_path`: climb from the selected node to the root
adding the batch size to every `sel_try`. -/
def propagateSelectionPath (fuel : Nat) (t : Tree) (i : Nat) (k : Nat) :
    Option Tree :=
  match fuel with
  | 0 => none
  | fuel' + 1 =>
    let t1 := t.modify i (fun n => { n with sel_try := n.sel_try + k })
    match (t.get i).parent with
    | some p => propagateSelectionPath fuel' t1 p k
    | none => some t1

/-- One target execution at the level `simulation` observes it: the oracle
abstracts `execute` + `unpack` and yields the return code and the decoded
trace; `FOUND_BUG` is raised exactly when the return code equals `BUG_RET`. -/
def binaryExecute (oracle : List Nat → Int × List Int) (bugRet : Int)
    (foundBug : Bool) (inp : List Nat) : Bool × List Int :=
  let r := oracle inp
  (foundBug || (r.1 = bugRet), r.2)

/-- The batch loop of `simulation`:
`[binary_execute(mutant) for mutant in mutants if not FOUND_BUG]`.  The
`coverageOnly` argument mirrors the global `COVERAGE_ONLY` being in scope;
the comprehension's guard reads only `FOUND_BUG`. -/
def simulationBatch (oracle : List Nat → Int × List Int) (bugRet : Int)
    (coverageOnly : Bool) : Bool → List (List Nat) → Bool × List (List Int)
  | foundBug, [] => (foundBug, [])
  | foundBug, m :: rest =>
    if foundBug then simulationBatch oracle bugRet coverageOnly foundBug rest
    else
      let r := binaryExecute oracle bugRet foundBug m
      let r2 := simulationBatch oracle bugRet coverageOnly r.1 rest
      (r2.1, r.2 :: r2.2)

/-- The unsigned little-endian value of a byte string (bytes outside the
slice read as 0; callers stay in range). -/
def uleValue (bs : List Nat) : Nat :=
  (List.range bs.length).foldr (fun j acc => acc + bs.getD j 0 * 256 ^ j) 0

/-- Two's-complement reading of an unsigned 64-bit value, which is what
`struct.unpack_from('q', ...)` (signed `long long`, native little-endian)
produces. -/
def toSigned64 (u : Nat) : Int :=
  if u < 2 ^ 63 then (u : Int) else (u : Int) - 2 ^ 64

/-- One `struct.unpack_from('q', output, off)` call: the signed little-endian
64-bit integer at byte offset `off`. -/
def decodeQ (bs : List Nat) (off : Nat) : Int :=
  toSigned64 (uleValue ((bs.drop off).take 8))

/-- `binary_execute.unpack`: `debug_assertion(len(output) % 8 == 0)` then one
signed 64-bit word per 8-byte chunk. -/
def unpack (bs : List Nat) : Option (List Int) :=
  if bs.length % 8 ≠ 0 then none
  else some ((List.range (bs.length / 8)).map (fun i => decodeQ bs (8 * i)))

/-- `score.average_constraint_solving_time`'s divisor:
`ceil(log(MIN_SAMPLES, 2) + self.sel_try - 1)`.  Note the source applies no
`max(1, ...)` to it. -/
noncomputable def solveCount (minS selTry : Nat) : ℤ :=
  ⌈Real.logb 2 minS + (selTry : ℝ) - 1⌉

/-- `score.expected_sample_num`: `min(MAX_SAMPLES, MIN_SAMPLES * 2 **
sel_try)`. -/
def expectedSampleNum (maxS minS selTry : Nat) : ℕ :=
  min maxS (minS * 2 ^ selTry)

/-- `RHO = 1 / sqrt(2)`. -/
noncomputable def rho : ℝ := 1 / Real.sqrt 2

/-- The `exploit = self.sim_win / self.sel_try` term of the UCT score. -/
noncomputable def exploitTerm (t : Tree) (i : Nat) : ℝ :=
  ((t.get i).sim_win : ℝ) / ((t.get i).sel_try : ℝ)

/-- The `uct_score - TIME_COEFF * time_penalisation()` expression reached
when none of the special cases of `TreeNode.score` fires. -/
noncomputable def uctOf (maxS minS : Nat) (timeCoeff : ℝ) (t : Tree)
    (i : Nat) : ℝ :=
  let n := t.get i
  let pSel : ℕ := match n.parent with | some p => (t.get p).sel_try | none => 0
  let explore : ℝ := Real.sqrt (2 * Real.log pSel / ((n.sim_try : ℝ) + 1))
  let avg : ℝ := (n.accumulated_time : ℝ) / (solveCount minS n.sel_try : ℝ)
  exploitTerm t i + 2 * rho * explore -
    timeCoeff * (avg / (expectedSampleNum maxS minS n.sel_try : ℝ))

/-- `TreeNode.score`, valued in `EReal` to capture the `float('-inf')` /
`float('inf')` special returns. -/
noncomputable def score (maxS minS : Nat) (timeCoeff : ℝ) (t : Tree)
    (i : Nat) : EReal :=
  let n := t.get i
  if n.fully_explored then ⊥
  else if n.sel_try = 0 then ⊤
  else if n.parent = none then ⊤
  else ((uctOf maxS minS timeCoeff t i : ℝ) : EReal)

/-- Structural well-formedness of an arena, holding of every tree the run
builds: child references are in range, a block child is registered under its
own address, block keys are duplicate-free, block children are never gold,
the `"Simulation"` child is gold, and gold nodes have no children. -/
def WF (t : Tree) : Bool :=
  (List.range t.size).all (fun j =>
    let n := t.get j
    (n.blockChildren.all (fun pr =>
      decide (pr.2 < t.size) && decide ((t.get pr.2).addr = pr.1) &&
      decide ((t.get pr.2).colour ≠ .G))) &&
    (n.blockChildren.map (·.1)).Nodup &&
    (match n.simChild with
     | some g => decide (g < t.size) && decide ((t.get g).colour = .G)
     | none => true) &&
    (if n.colour = .G then n.blockChildren.isEmpty && n.simChild.isNone
     else true))

/-! ### Basic arena lemmas -/

theorem Tree.size_modify (t : Tree) (i : Nat) (f : TreeNode → TreeNode) :
    (t.modify i f).size = t.size := by
  simp [Tree.modify, Tree.set, Tree.size]

theorem Tree.get_modify (t : Tree) (i : Nat) (f : TreeNode → TreeNode)
    (j : Nat) :
    (t.modify i f).get j =
      if i = j ∧ i < t.size then f (t.get i) else t.get j := by
  simp only [Tree.modify, Tree.set, Tree.get, Tree.size,
    List.getD_eq_getElem?_getD]
  rw [List.getElem?_set]
  by_cases hij : i = j
  · subst hij
    by_cases hi : i < t.nodes.length
    · simp [hi]
    · simp [hi, List.getElem?_eq_none (Nat.le_of_not_lt hi)]
  · simp [hij]

theorem Tree.size_push (t : Tree) (n : TreeNode) :
    (t.push n).size = t.size + 1 := by
  simp [Tree.push, Tree.size]

theorem Tree.get_push (t : Tree) (n : TreeNode) (j : Nat) :
    (t.push n).get j = if j = t.size then n else t.get j := by
  simp only [Tree.push, Tree.get, Tree.size, List.getD_eq_getElem?_getD]
  rw [List.getElem?_append]
  by_cases hj : j < t.nodes.length
  · simp [hj, Nat.ne_of_lt hj]
  · by_cases he : j = t.nodes.length
    · simp [he]
    · have h1 : t.nodes[j]? = none := List.getElem?_eq_none (by omega)
      have h2 : [n][j - t.nodes.length]? = none :=
        List.getElem?_eq_none (by simp; omega)
      simp [hj, h1, h2, he]

theorem Tree.get_oob (t : Tree) (j : Nat) (h : ¬ j < t.size) :
    t.get j = {} := by
  simp only [Tree.get, Tree.size, List.getD_eq_getElem?_getD] at *
  simp [List.getElem?_eq_none (Nat.le_of_not_lt h)]

/-! ### Field-preservation relations -/

/-- `t'` differs from `t` at most in `fully_explored` flags, and those only
monotonically.  This is exactly what `mark_fully_explored` does to the
arena. -/
def FEonly (t t' : Tree) : Prop :=
  t'.size = t.size ∧
  ∀ j, t'.get j = { t.get j with fully_explored := (t'.get j).fully_explored } ∧
    ((t.get j).fully_explored = true → (t'.get j).fully_explored = true)

theorem FEonly.refl_fe (t : Tree) : FEonly t t :=
  ⟨rfl, fun _ => ⟨rfl, fun h => h⟩⟩

theorem FEonly.trans_fe {t t' t'' : Tree} (h1 : FEonly t t') (h2 : FEonly t' t'') :
    FEonly t t'' := by
  refine ⟨h2.1.trans h1.1, fun j => ⟨?_, fun h => (h2.2 j).2 ((h1.2 j).2 h)⟩⟩
  rw [(h2.2 j).1, (h1.2 j).1]

theorem FEonly.colour_eq {t t' : Tree} (h : FEonly t t') (j : Nat) :
    (t'.get j).colour = (t.get j).colour := by rw [(h.2 j).1]

theorem FEonly.blockChildren_eq {t t' : Tree} (h : FEonly t t') (j : Nat) :
    (t'.get j).blockChildren = (t.get j).blockChildren := by rw [(h.2 j).1]

theorem FEonly.simChild_eq {t t' : Tree} (h : FEonly t t') (j : Nat) :
    (t'.get j).simChild = (t.get j).simChild := by rw [(h.2 j).1]

theorem FEonly.addr_eq {t t' : Tree} (h : FEonly t t') (j : Nat) :
    (t'.get j).addr = (t.get j).addr := by rw [(h.2 j).1]

theorem FEonly.parent_eq {t t' : Tree} (h : FEonly t t') (j : Nat) :
    (t'.get j).parent = (t.get j).parent := by rw [(h.2 j).1]

theorem FEonly.sel_eq {t t' : Tree} (h : FEonly t t') (j : Nat) :
    (t'.get j).sel_try = (t.get j).sel_try := by rw [(h.2 j).1]

theorem FEonly.acc_eq {t t' : Tree} (h : FEonly t t') (j : Nat) :
    (t'.get j).accumulated_time = (t.get j).accumulated_time := by
  rw [(h.2 j).1]

theorem FEonly.state_eq {t t' : Tree} (h : FEonly t t') (j : Nat) :
    (t'.get j).state = (t.get j).state := by rw [(h.2 j).1]

theorem FEonly.fe_mono {t t' : Tree} (h : FEonly t t') (j : Nat) :
    (t.get j).fully_explored = true → (t'.get j).fully_explored = true :=
  (h.2 j).2

/-- Setting the `fully_explored` flag of one node is an `FEonly` change. -/
theorem FEonly.of_markNode (t : Tree) (i : Nat) :
    FEonly t (t.modify i (fun m => { m with fully_explored := true })) := by
  constructor
  · exact Tree.size_modify t i _
  · intro j
    rw [Tree.get_modify]
    by_cases hij : i = j
    · subst hij
      by_cases hi : i < t.size
      · simp [hi]
      · simp [hi]
    · simp [hij]

/-- `allNonGoldFE` transfers along `FEonly` (colours and children are
unchanged and the flags only grow). -/
theorem allNonGoldFE_mono {t t' : Tree} (h : FEonly t t') (n : TreeNode)
    (hn : allNonGoldFE t n = true) : allNonGoldFE t' n = true := by
  simp only [allNonGoldFE, List.all_eq_true, Bool.or_eq_true,
    decide_eq_true_eq] at *
  intro c hc
  rcases hn c hc with hg | hf
  · exact Or.inl ((h.colour_eq c).trans hg)
  · exact Or.inr (h.fe_mono c hf)

/-- `WF` only inspects fields that `FEonly` preserves. -/
theorem WF_of_FEonly {t t' : Tree} (h : FEonly t t') (hw : WF t = true) :
    WF t' = true := by
  simp only [WF, List.all_eq_true, List.mem_range] at *
  intro j hj
  rw [h.1] at hj
  have hw' := hw j hj
  rw [(h.2 j).1]
  simp only [h.1]
  revert hw'
  have hbc : ∀ c : Nat, (t'.get c).addr = (t.get c).addr ∧
      (t'.get c).colour = (t.get c).colour :=
    fun c => ⟨h.addr_eq c, h.colour_eq c⟩
  simp only [Bool.and_eq_true, List.all_eq_true, decide_eq_true_eq]
  intro ⟨⟨⟨hA, hB⟩, hC⟩, hD⟩
  refine ⟨⟨⟨?_, hB⟩, ?_⟩, hD⟩
  · intro pr hpr
    rcases hA pr hpr with ⟨⟨h1, h2⟩, h3⟩
    exact ⟨⟨h1, by rw [(hbc pr.2).1]; exact h2⟩,
      by rw [(hbc pr.2).2]; exact h3⟩
  · cases hs : (t.get j).simChild with
    | none => simp
    | some g =>
      rw [hs] at hC
      simp only [Bool.and_eq_true, decide_eq_true_eq] at hC
      simp [hC.1, (hbc g).2, hC.2]

/-! ### `mark_fully_explored` preserves everything but the flags -/

theorem FEonly.of_markStep {t : Tree} {i : Nat} {t' : Tree}
    (h : markStep t i = some t') : FEonly t t' := by
  unfold markStep at h
  by_cases hr : (t.get i).colour = .R
  · rw [if_pos hr] at h
    cases hg : (t.get i).simChild with
    | none => rw [hg] at h; exact absurd h (by simp)
    | some g =>
      rw [hg] at h
      simp only [Option.some.injEq] at h
      subst h
      exact (FEonly.of_markNode t i).trans_fe (FEonly.of_markNode _ g)
  · rw [if_neg hr] at h
    simp only [Option.some.injEq] at h
    subst h
    exact FEonly.of_markNode t i

theorem FEonly.of_markFE :
    ∀ (fuel : Nat) {t : Tree} {i : Nat} {t' : Tree},
      markFE fuel t i = some t' → FEonly t t' := by
  intro fuel
  induction fuel with
  | zero => intro t i t' h; exact absurd h (by simp [markFE])
  | succ fuel ih =>
    intro t i t' h
    unfold markFE at h
    dsimp only [] at h
    split_ifs at h with h1 h2 h3
    all_goals try exact Option.some.inj h ▸ FEonly.refl_fe t
    cases hm : markStep t i with
      | none => rw [hm] at h; exact absurd h (by simp)
      | some t2 =>
        rw [hm] at h
        cases hp : (t.get i).parent with
        | some p =>
          rw [hp] at h
          exact (FEonly.of_markStep hm).trans_fe (ih h)
        | none =>
          rw [hp] at h
          exact Option.some.inj h ▸ FEonly.of_markStep hm

/-! ### Unpacking the `WF` invariant -/

theorem WF_spec {t : Tree} (hw : WF t = true) (j : Nat) :
    (∀ pr ∈ (t.get j).blockChildren,
      pr.2 < t.size ∧ (t.get pr.2).addr = pr.1 ∧ (t.get pr.2).colour ≠ .G) ∧
    ((t.get j).blockChildren.map (·.1)).Nodup ∧
    (∀ g, (t.get j).simChild = some g →
      g < t.size ∧ (t.get g).colour = .G) ∧
    ((t.get j).colour = .G →
      (t.get j).blockChildren = [] ∧ (t.get j).simChild = none) := by
  by_cases hj : j < t.size
  · have helem := List.all_eq_true.mp hw j (List.mem_range.mpr hj)
    simp only [Bool.and_eq_true, List.all_eq_true, decide_eq_true_eq] at helem
    obtain ⟨⟨⟨hA, hB⟩, hC⟩, hD⟩ := helem
    refine ⟨?_, hB, ?_, ?_⟩
    · intro pr hpr
      rcases hA pr hpr with ⟨⟨h1, h2⟩, h3⟩
      exact ⟨h1, h2, h3⟩
    · intro g hg
      rw [hg] at hC
      simp only [Bool.and_eq_true, decide_eq_true_eq] at hC
      exact hC
    · intro hG
      rw [if_pos hG] at hD
      simp only [Bool.and_eq_true, List.isEmpty_iff, Option.isNone_iff_eq_none]
        at hD
      exact hD
  · rw [Tree.get_oob t j hj]
    refine ⟨by simp, by simp, by simp, ?_⟩
    intro hG
    exact absurd hG (by simp)

theorem WF_intro {t : Tree}
    (h : ∀ j, j < t.size →
      (∀ pr ∈ (t.get j).blockChildren,
        pr.2 < t.size ∧ (t.get pr.2).addr = pr.1 ∧
          (t.get pr.2).colour ≠ .G) ∧
      ((t.get j).blockChildren.map (·.1)).Nodup ∧
      (∀ g, (t.get j).simChild = some g →
        g < t.size ∧ (t.get g).colour = .G) ∧
      ((t.get j).colour = .G →
        (t.get j).blockChildren = [] ∧ (t.get j).simChild = none)) :
    WF t = true := by
  apply List.all_eq_true.mpr
  intro j hjr
  have hj := List.mem_range.mp hjr
  obtain ⟨hA, hB, hC, hD⟩ := h j hj
  simp only [Bool.and_eq_true, List.all_eq_true, decide_eq_true_eq]
  refine ⟨⟨⟨?_, hB⟩, ?_⟩, ?_⟩
  · intro pr hpr
    rcases hA pr hpr with ⟨h1, h2, h3⟩
    exact ⟨⟨h1, h2⟩, h3⟩
  · cases hs : (t.get j).simChild with
    | none => simp
    | some g =>
      rcases hC g hs with ⟨h1, h2⟩
      simp [h1, h2]
  · by_cases hG : (t.get j).colour = .G
    · rcases hD hG with ⟨h1, h2⟩
      simp [hG, h1, h2]
    · simp [hG]

/-- A node whose colour is not White is a real entry of the arena (out of
range reads give the default node, which is White). -/
theorem lt_size_of_colour_ne_W {t : Tree} {i : Nat}
    (h : (t.get i).colour ≠ .W) : i < t.size := by
  by_contra hi
  rw [Tree.get_oob t i hi] at h
  exact h rfl

theorem childIds_congr {n n' : TreeNode}
    (h1 : n.blockChildren = n'.blockChildren) (h2 : n.simChild = n'.simChild) :
    childIds n = childIds n' := by
  unfold childIds
  rw [h1, h2]

/-! ### The `markStep` case analysis -/

theorem markStep_fe_cases {t : Tree} {i : Nat} {t2 : Tree}
    (hm : markStep t i = some t2) (j : Nat)
    (hj : (t2.get j).fully_explored = true) :
    (t.get j).fully_explored = true ∨ j = i ∨
      ((t.get i).colour = .R ∧ (t.get i).simChild = some j) := by
  unfold markStep at hm
  by_cases hr : (t.get i).colour = .R
  · rw [if_pos hr] at hm
    cases hg : (t.get i).simChild with
    | none => rw [hg] at hm; exact absurd hm (by simp)
    | some g =>
      rw [hg] at hm
      simp only [Option.some.injEq] at hm
      subst hm
      rw [Tree.get_modify] at hj
      split_ifs at hj with hc1
      · exact Or.inr (Or.inr ⟨hr, congrArg some hc1.1⟩)
      · rw [Tree.get_modify] at hj
        split_ifs at hj with hc2
        · exact Or.inr (Or.inl hc2.1.symm)
        · exact Or.inl hj
  · rw [if_neg hr] at hm
    simp only [Option.some.injEq] at hm
    subst hm
    rw [Tree.get_modify] at hj
    split_ifs at hj with hc
    · exact Or.inr (Or.inl hc.1.symm)
    · exact Or.inl hj

theorem markStep_marks_i {t : Tree} {i : Nat} {t2 : Tree}
    (hm : markStep t i = some t2) (hi : i < t.size) :
    (t2.get i).fully_explored = true := by
  unfold markStep at hm
  by_cases hr : (t.get i).colour = .R
  · rw [if_pos hr] at hm
    cases hg : (t.get i).simChild with
    | none => rw [hg] at hm; exact absurd hm (by simp)
    | some g =>
      rw [hg] at hm
      simp only [Option.some.injEq] at hm
      subst hm
      rw [Tree.get_modify]
      split_ifs with hc
      · rfl
      · rw [Tree.get_modify, if_pos ⟨rfl, hi⟩]
  · rw [if_neg hr] at hm
    simp only [Option.some.injEq] at hm
    subst hm
    rw [Tree.get_modify, if_pos ⟨rfl, hi⟩]

theorem markStep_marks_g {t : Tree} {i : Nat} {t2 : Tree} {g : Nat}
    (hm : markStep t i = some t2) (hr : (t.get i).colour = .R)
    (hg : (t.get i).simChild = some g) (hgs : g < t.size) :
    (t2.get g).fully_explored = true := by
  unfold markStep at hm
  rw [if_pos hr, hg] at hm
  simp only [Option.some.injEq] at hm
  subst hm
  rw [Tree.get_modify]
  have hsz : g < ((t.modify i
      (fun m => { m with fully_explored := true }))).size := by
    rw [Tree.size_modify]; exact hgs
  rw [if_pos ⟨rfl, hsz⟩]

/-! ### The marking discipline of `mark_fully_explored` -/

theorem markFE_marked :
    ∀ (fuel : Nat) (t : Tree) (i : Nat) (t' : Tree), WF t = true →
      markFE fuel t i = some t' →
      ∀ j, (t.get j).fully_explored = false →
        (t'.get j).fully_explored = true →
        (t.get j).colour ≠ .W ∧
        ¬((t.get j).colour = .R ∧ (t.get j).sel_try = 0) ∧
        allNonGoldFE t' (t'.get j) = true ∧
        (∀ g, (t.get j).colour = .R → (t.get j).simChild = some g →
          (t'.get g).fully_explored = true) := by
  intro fuel
  induction fuel with
  | zero => intro t i t' _ h; exact absurd h (by simp [markFE])
  | succ fuel ih =>
    intro t i t' hw h j hj0 hj1
    unfold markFE at h
    dsimp only [] at h
    split_ifs at h with h1 h2 h3
    any_goals
      rw [← Option.some.inj h] at hj1
      exact absurd hj1 (by rw [hj0]; simp)
    push_neg at h2
    cases hm : markStep t i with
    | none => rw [hm] at h; exact absurd h (by simp)
    | some t2 =>
      rw [hm] at h
      have hfe2 : FEonly t t2 := FEonly.of_markStep hm
      have hw2 : WF t2 = true := WF_of_FEonly hfe2 hw
      have hi : i < t.size := lt_size_of_colour_ne_W h1
      -- the continuation tree: either the recursive call on the parent,
      -- or `t2` itself when the node is the root
      have hrest : FEonly t2 t' ∧
          (∀ k, (t2.get k).fully_explored = false →
            (t'.get k).fully_explored = true →
            (t2.get k).colour ≠ .W ∧
            ¬((t2.get k).colour = .R ∧ (t2.get k).sel_try = 0) ∧
            allNonGoldFE t' (t'.get k) = true ∧
            (∀ g, (t2.get k).colour = .R → (t2.get k).simChild = some g →
              (t'.get g).fully_explored = true)) := by
        cases hp : (t.get i).parent with
        | some p =>
          rw [hp] at h
          exact ⟨FEonly.of_markFE fuel h, fun k => ih t2 p t' hw2 h k⟩
        | none =>
          rw [hp] at h
          rw [← Option.some.inj h]
          refine ⟨FEonly.refl_fe t2, fun k hk0 hk1 => ?_⟩
          rw [hk0] at hk1
          exact absurd hk1 (by simp)
      obtain ⟨hfe', hspec⟩ := hrest
      have hfeT : FEonly t t' := hfe2.trans_fe hfe'
      by_cases hFE2 : (t2.get j).fully_explored = true
      · -- `j` was marked by this very step of the recursion
        rcases markStep_fe_cases hm j hFE2 with hold | rfl | ⟨hr, hg⟩
        · exact absurd hold (by rw [hj0]; simp)
        · refine ⟨h1, fun hc => h3 ⟨hc.2, hc.1⟩, ?_, ?_⟩
          · have hm1 : allNonGoldFE t' (t.get j) = true :=
              allNonGoldFE_mono hfeT _ h2
            have : childIds (t'.get j) = childIds (t.get j) :=
              childIds_congr (hfeT.blockChildren_eq j) (hfeT.simChild_eq j)
            unfold allNonGoldFE at *
            rw [this]
            exact hm1
          · intro g hr hg
            have hgs : g < t.size := ((WF_spec hw j).2.2.1 g hg).1
            exact hfe'.fe_mono g (markStep_marks_g hm hr hg hgs)
        · -- `j` is the gold simulation child of the marked red node `i`
          have hgold : (t.get j).colour = .G := ((WF_spec hw i).2.2.1 j hg).2
          have hkids := (WF_spec hw j).2.2.2 hgold
          refine ⟨by rw [hgold]; simp, by rw [hgold]; simp, ?_, ?_⟩
          · have : childIds (t'.get j) = childIds (t.get j) :=
              childIds_congr (hfeT.blockChildren_eq j) (hfeT.simChild_eq j)
            unfold allNonGoldFE
            rw [this]
            unfold childIds
            rw [hkids.1, hkids.2]
            rfl
          · intro g' hr' _
            rw [hgold] at hr'
            exact absurd hr' (by simp)
      · -- `j` was marked by the continuation on the parent
        have hk0 : (t2.get j).fully_explored = false := by
          cases hv : (t2.get j).fully_explored
          · rfl
          · exact absurd hv hFE2
        have hres := hspec j hk0 hj1
        rw [hfe2.colour_eq j, hfe2.sel_eq j, hfe2.simChild_eq j] at hres
        exact hres

/-- Claim C2: the eligibility rules of `mark_fully_explored`, for every
well-formed arena: (a) a White node is never marked; (b) a node is marked
only when all of its non-Gold children are marked; (c) a Red node with
`sel_try == 0` is never marked; (d) marking a Red node also marks its Gold
Simulation child; (e) after the marking assignments the procedure recurses
on the parent (and stops at the root). -/
theorem legion_c2 :
    (∀ (fuel : Nat) (t : Tree) (i : Nat) (t' : Tree), WF t = true →
      markFE fuel t i = some t' → ∀ j, (t.get j).colour = .W →
        (t'.get j).fully_explored = (t.get j).fully_explored) ∧
    (∀ (fuel : Nat) (t : Tree) (i : Nat) (t' : Tree), WF t = true →
      markFE fuel t i = some t' → ∀ j,
        (t.get j).fully_explored = false →
        (t'.get j).fully_explored = true →
        allNonGoldFE t' (t'.get j) = true) ∧
    (∀ (fuel : Nat) (t : Tree) (i : Nat) (t' : Tree), WF t = true →
      markFE fuel t i = some t' → ∀ j, (t.get j).colour = .R →
        (t.get j).sel_try = 0 →
        (t'.get j).fully_explored = (t.get j).fully_explored) ∧
    (∀ (fuel : Nat) (t : Tree) (i : Nat) (t' : Tree), WF t = true →
      markFE fuel t i = some t' → ∀ j g, (t.get j).colour = .R →
        (t.get j).simChild = some g →
        (t.get j).fully_explored = false →
        (t'.get j).fully_explored = true →
        (t'.get g).fully_explored = true) ∧
    (∀ (fuel : Nat) (t : Tree) (i : Nat),
      (t.get i).colour ≠ .W → allNonGoldFE t (t.get i) = true →
      ¬((t.get i).sel_try = 0 ∧ (t.get i).colour = .R) →
      markFE (fuel + 1) t i =
        (match markStep t i with
         | none => none
         | some t2 =>
           match (t.get i).parent with
           | some p => markFE fuel t2 p
           | none => some t2)) := by
  refine ⟨?_, ?_, ?_, ?_, ?_⟩
  · intro fuel t i t' hw h j hj
    cases hv : (t.get j).fully_explored
    · cases hv' : (t'.get j).fully_explored
      · rfl
      · exact absurd hj (markFE_marked fuel t i t' hw h j hv hv').1
    · exact (FEonly.of_markFE fuel h).fe_mono j hv
  · intro fuel t i t' hw h j hj0 hj1
    exact (markFE_marked fuel t i t' hw h j hj0 hj1).2.2.1
  · intro fuel t i t' hw h j hr hs
    cases hv : (t.get j).fully_explored
    · cases hv' : (t'.get j).fully_explored
      · rfl
      · exact absurd ⟨hr, hs⟩ (markFE_marked fuel t i t' hw h j hv hv').2.1
    · exact (FEonly.of_markFE fuel h).fe_mono j hv
  · intro fuel t i t' hw h j g hr hg hj0 hj1
    exact (markFE_marked fuel t i t' hw h j hj0 hj1).2.2.2 g hr hg
  · intro fuel t i h1 h2 h3
    conv_lhs => unfold markFE
    dsimp only []
    rw [if_neg h1, if_neg (by simp [h2]), if_neg h3]

/-- The tree `mark_fully_explored` produces on the three-node `tM` arena
(a Red root with its Gold child and one Black leaf) when invoked on the
leaf: the leaf, the root and the root's Gold child all get marked. -/
def tM : Tree := ⟨[
  { addr := 0, colour := .R, blockChildren := [(1, 2)], simChild := some 1,
    sel_try := 3 },
  { addr := 0, parent := some 0, colour := .G,
    state := some { addr := 0 } },
  { addr := 1, parent := some 0, colour := .B, sel_try := 1 }]⟩

def tM2 : Tree := ⟨[
  { addr := 0, colour := .R, blockChildren := [(1, 2)], simChild := some 1,
    sel_try := 3, fully_explored := true },
  { addr := 0, parent := some 0, colour := .G,
    state := some { addr := 0 }, fully_explored := true },
  { addr := 1, parent := some 0, colour := .B, sel_try := 1,
    fully_explored := true }]⟩

theorem legion_c2_witness : (tM2.get 1).fully_explored = true :=
  legion_c2.2.2.2.1 5 tM 2 tM2 (by decide) (by decide) 0 1 (by rfl) (by rfl)
    (by rfl) (by decide)

/-! ### Claim C6: `accumulated_time` during sampling -/

theorem acc_get_modify (t : Tree) (i : Nat) (f : TreeNode → TreeNode) (j : Nat)
    (hf : ∀ m, (f m).accumulated_time = m.accumulated_time) :
    ((t.modify i f).get j).accumulated_time = (t.get j).accumulated_time := by
  rw [Tree.get_modify]
  split_ifs with h
  · rw [hf, h.1]
  · rfl

/-- Claim C6: contrary to the spec, no code path ever adds to
`accumulated_time`.  The field is initialised to `0` by `TreeNode.__init__`
and `app_fuzzing` (the Sampler) leaves every node's `accumulated_time`
untouched — in particular it can never become strictly greater after a
sampling call, however long the call took. -/
theorem legion_c6 :
    (({} : TreeNode).accumulated_time = 0) ∧
    ∀ (maxS minS fuel : Nat) (t : Tree) (i : Nat) (rs : List (List Nat))
      (t' : Tree), appFuzzing maxS minS fuel t i = some (rs, t') →
      ∀ j, (t'.get j).accumulated_time = (t.get j).accumulated_time := by
  constructor
  · rfl
  · intro maxS minS fuel t i rs t' h j
    unfold appFuzzing at h
    cases hst : (t.get i).state with
    | none => rw [hst] at h; exact absurd h (by simp)
    | some s =>
      rw [hst] at h
      simp only [] at h
      cases hloop : appLoop maxS minS ((s.stdinBits + 7) / 8)
          (((t.get i).samples).getD s.sampleStream) [] with
      | none => rw [hloop] at h; exact absurd h (by simp)
      | some trip =>
        rw [hloop] at h
        obtain ⟨results, remaining, exhausted⟩ := trip
        simp only [] at h
        by_cases hex : exhausted = true
        · rw [hex, if_pos rfl] at h
          cases hm : markFE fuel ((t.modify i
              (fun m => { m with samples := some remaining })).modify i
              (fun m => { m with fully_explored := true })) i with
          | none => rw [hm] at h; exact absurd h (by simp)
          | some t3 =>
            rw [hm] at h
            simp only [Option.some.injEq, Prod.mk.injEq] at h
            rw [← h.2]
            rw [(FEonly.of_markFE fuel hm).acc_eq j]
            rw [acc_get_modify _ i (fun m => { m with fully_explored := true })
              j (fun m => rfl)]
            rw [acc_get_modify t i (fun m => { m with samples := some remaining })
              j (fun m => rfl)]
        · simp only [Bool.not_eq_true] at hex
          rw [hex] at h
          simp only [Bool.false_eq_true, if_false, Option.some.injEq,
            Prod.mk.injEq] at h
          rw [← h.2]
          rw [acc_get_modify t i (fun m => { m with samples := some remaining })
            j (fun m => rfl)]

/-- A one-node tree holding a gold simulation node with a satisfiable state
whose solver stream yields `5` and then signals a needed solver call. -/
def tApp : Tree := ⟨[
  { addr := 0, colour := .G,
    state := some { addr := 0, stdinBits := 8,
                    sampleStream := [some 5, none, some 7] } }]⟩

/-- The tree `app_fuzzing` produces from `tApp`: only the cursor moved. -/
def tApp' : Tree := ⟨[
  { addr := 0, colour := .G,
    state := some { addr := 0, stdinBits := 8,
                    sampleStream := [some 5, none, some 7] },
    samples := some [some 7] }]⟩

theorem legion_c6_witness :
    (tApp'.get 0).accumulated_time = (tApp.get 0).accumulated_time :=
  legion_c6.2 100 1 5 tApp 0 [[5]] tApp' (by decide) 0

/-! ### Generic field-preservation helpers -/

theorem field_get_modify {α : Type} (sel : TreeNode → α) (t : Tree) (i : Nat)
    (f : TreeNode → TreeNode) (j : Nat) (hf : ∀ m, sel (f m) = sel m) :
    sel ((t.modify i f).get j) = sel (t.get j) := by
  rw [Tree.get_modify]
  split_ifs with h
  · rw [hf, h.1]
  · rfl

theorem field_get_push {α : Type} (sel : TreeNode → α) (t : Tree)
    (n : TreeNode) (j : Nat) (hn : sel n = sel ({} : TreeNode)) :
    sel ((t.push n).get j) = sel (t.get j) := by
  rw [Tree.get_push]
  split_ifs with h
  · rw [hn, ← Tree.get_oob t j (by omega)]
  · rfl

theorem lt_size_of_phantom {t : Tree} {i : Nat}
    (h : (t.get i).phantom = true) : i < t.size := by
  by_contra hi
  rw [Tree.get_oob t i hi] at h
  exact absurd h (by simp)

theorem lookupChild_mem {n : TreeNode} {a : Int} {c : Nat}
    (h : lookupChild n a = some c) : (a, c) ∈ n.blockChildren := by
  unfold lookupChild at h
  cases hf : n.blockChildren.find? (fun pr => pr.1 = a) with
  | none => rw [hf] at h; exact absurd h (by simp)
  | some pr =>
    rw [hf] at h
    simp only [Option.map_some', Option.some.injEq] at h
    have hm := List.mem_of_find?_eq_some hf
    have hp := List.find?_some hf
    simp only [decide_eq_true_eq] at hp
    have : pr = (a, c) := Prod.ext hp (by rw [h])
    exact this ▸ hm

theorem lookupChild_nil {n : TreeNode} (h : n.blockChildren = []) (a : Int) :
    lookupChild n a = none := by
  unfold lookupChild
  rw [h]
  rfl

theorem lookupChild_none_not_mem {n : TreeNode} {a : Int}
    (h : lookupChild n a = none) : ∀ pr ∈ n.blockChildren, pr.1 ≠ a := by
  unfold lookupChild at h
  cases hf : n.blockChildren.find? (fun pr => pr.1 = a) with
  | none =>
    intro pr hpr
    have := List.find?_eq_none.mp hf pr hpr
    simpa using this
  | some pr => rw [hf] at h; exact absurd h (by simp)

theorem setChildKey_of_absent {n : TreeNode} {a : Int} (c : Nat)
    (h : lookupChild n a = none) :
    setChildKey n a c = { n with blockChildren := n.blockChildren ++ [(a, c)] } := by
  unfold setChildKey
  rw [if_neg]
  unfold lookupChild at h
  cases hf : n.blockChildren.find? (fun pr => pr.1 = a) with
  | none => simp [hf]
  | some pr => rw [hf] at h; exact absurd h (by simp)

theorem setChildKey_sim (n : TreeNode) (a : Int) (c : Nat) :
    (setChildKey n a c).simChild = n.simChild ∧
    (setChildKey n a c).addr = n.addr ∧
    (setChildKey n a c).colour = n.colour ∧
    (setChildKey n a c).sim_try = n.sim_try ∧
    (setChildKey n a c).phantom = n.phantom := by
  unfold setChildKey
  split_ifs <;> exact ⟨rfl, rfl, rfl, rfl, rfl⟩

/-! ### The expansion walk: size, statistics, and the new-path bit -/

theorem matchChild_found {t : Tree} {i : Nat} {a : Int} {c : Nat}
    (h : lookupChild (t.get i) a = some c) :
    matchChild t i a =
      ((t.get c).phantom, c,
        t.modify c (fun n => { n with phantom := false })) := by
  unfold matchChild
  rw [h]

theorem matchChild_create {t : Tree} {i : Nat} {a : Int}
    (h : lookupChild (t.get i) a = none) :
    matchChild t i a =
      (true, t.size, (t.push { addr := a, parent := some i }).modify i
        (fun n => setChildKey n a t.size)) := by
  unfold matchChild
  rw [h]

theorem walkTrace_nil (t : Tree) (i : Nat) : walkTrace t i [] = (false, i, t) :=
  rfl

theorem walkTrace_cons (t : Tree) (i : Nat) (a : Int) (rest : List Int) :
    walkTrace t i (a :: rest) =
      ((matchChild t i a).1 ||
         (walkTrace (matchChild t i a).2.2 (matchChild t i a).2.1 rest).1,
       (walkTrace (matchChild t i a).2.2 (matchChild t i a).2.1 rest).2.1,
       (walkTrace (matchChild t i a).2.2 (matchChild t i a).2.1 rest).2.2) :=
  rfl

/-- Child references never dangle: every block child index is in range.
Derivable from `WF` and preserved by the trace walk. -/
def ChildrenLt (t : Tree) : Prop :=
  ∀ j, ∀ pr ∈ (t.get j).blockChildren, pr.2 < t.size

theorem ChildrenLt_of_WF {t : Tree} (hw : WF t = true) : ChildrenLt t :=
  fun j pr hpr => ((WF_spec hw j).1 pr hpr).1

theorem matchChild_size_le (t : Tree) (i : Nat) (a : Int) :
    t.size ≤ (matchChild t i a).2.2.size := by
  cases hlk : lookupChild (t.get i) a with
  | some c => rw [matchChild_found hlk]; rw [Tree.size_modify]
  | none =>
    rw [matchChild_create hlk]
    dsimp only []
    rw [Tree.size_modify, Tree.size_push]
    omega

theorem matchChild_size_of_not_new {t : Tree} {i : Nat} {a : Int}
    (h : (matchChild t i a).1 = false) :
    (matchChild t i a).2.2.size = t.size := by
  cases hlk : lookupChild (t.get i) a with
  | some c => rw [matchChild_found hlk]; exact Tree.size_modify t c _
  | none => rw [matchChild_create hlk] at h; exact absurd h (by simp)

theorem matchChild_size_create {t : Tree} {i : Nat} {a : Int}
    (h : lookupChild (t.get i) a = none) :
    (matchChild t i a).2.2.size = t.size + 1 := by
  rw [matchChild_create h]
  dsimp only []
  rw [Tree.size_modify, Tree.size_push]

theorem walk_size_mono :
    ∀ (addrs : List Int) (t : Tree) (i : Nat),
      t.size ≤ (walkTrace t i addrs).2.2.size := by
  intro addrs
  induction addrs with
  | nil => intro t i; exact Nat.le_refl _
  | cons a rest ih =>
    intro t i
    rw [walkTrace_cons]
    exact Nat.le_trans (matchChild_size_le t i a) (ih _ _)

theorem matchChild_simtry (t : Tree) (i : Nat) (a : Int) (j : Nat) :
    ((matchChild t i a).2.2.get j).sim_try = (t.get j).sim_try := by
  cases hlk : lookupChild (t.get i) a with
  | some c =>
    rw [matchChild_found hlk]
    exact field_get_modify (fun m => m.sim_try) t c
      (fun n => { n with phantom := false }) j (fun m => rfl)
  | none =>
    rw [matchChild_create hlk]
    dsimp only []
    rw [field_get_modify (fun m => m.sim_try) _ i _ j
      (fun m => (setChildKey_sim m a t.size).2.2.2.1)]
    exact field_get_push (fun m => m.sim_try) t _ j rfl

theorem walk_simtry :
    ∀ (addrs : List Int) (t : Tree) (i : Nat) (j : Nat),
      ((walkTrace t i addrs).2.2.get j).sim_try = (t.get j).sim_try := by
  intro addrs
  induction addrs with
  | nil => intro t i j; rfl
  | cons a rest ih =>
    intro t i j
    rw [walkTrace_cons]
    dsimp only []
    rw [ih _ _ j, matchChild_simtry]

theorem walk_growth :
    ∀ (addrs : List Int) (t : Tree) (i : Nat),
      t.size < (walkTrace t i addrs).2.2.size →
      (walkTrace t i addrs).1 = true := by
  intro addrs
  induction addrs with
  | nil => intro t i h; exact absurd h (by simp [walkTrace_nil])
  | cons a rest ih =>
    intro t i h
    rw [walkTrace_cons] at h ⊢
    dsimp only [] at h ⊢
    cases hmc : (matchChild t i a).1 with
    | true => simp
    | false =>
      simp only [Bool.false_or]
      apply ih
      calc (matchChild t i a).2.2.size = t.size :=
            matchChild_size_of_not_new hmc
        _ < _ := h

theorem ChildrenLt_matchChild {t : Tree} (i : Nat) (a : Int)
    (hc : ChildrenLt t) (hi : i < t.size) :
    ChildrenLt (matchChild t i a).2.2 ∧
    (matchChild t i a).2.1 < (matchChild t i a).2.2.size := by
  cases hlk : lookupChild (t.get i) a with
  | some c =>
    rw [matchChild_found hlk]
    dsimp only []
    constructor
    · intro j pr hpr
      rw [field_get_modify (fun m => m.blockChildren) t c
        (fun n => { n with phantom := false }) j (fun m => rfl)] at hpr
      rw [Tree.size_modify]
      exact hc j pr hpr
    · rw [Tree.size_modify]
      exact hc i (a, c) (lookupChild_mem hlk)
  | none =>
    rw [matchChild_create hlk]
    dsimp only []
    have hsz : ((t.push { addr := a, parent := some i }).modify i
        (fun n => setChildKey n a t.size)).size = t.size + 1 := by
      rw [Tree.size_modify, Tree.size_push]
    constructor
    · intro j pr hpr
      rw [hsz]
      rw [Tree.get_modify] at hpr
      split_ifs at hpr with hij
      · rw [setChildKey_of_absent t.size
          (by rw [Tree.get_push, if_neg (Nat.ne_of_lt hi)]; exact hlk)] at hpr
        simp only [Tree.get_push, Tree.size_push] at hpr
        rw [if_neg (Nat.ne_of_lt hi)] at hpr
        rcases List.mem_append.mp hpr with hold | hnew
        · exact Nat.lt_succ_of_lt (hc i pr hold)
        · simp only [List.mem_singleton] at hnew
          rw [hnew]
          exact Nat.lt_succ_self _
      · rw [Tree.get_push] at hpr
        split_ifs at hpr with hjs
        · exact absurd hpr (by simp)
        · exact Nat.lt_succ_of_lt (hc j pr hpr)
    · rw [hsz]
      exact Nat.lt_succ_self _

theorem walk_term :
    ∀ (addrs : List Int) (t : Tree) (i : Nat), ChildrenLt t → i < t.size →
      ChildrenLt (walkTrace t i addrs).2.2 ∧
      (walkTrace t i addrs).2.1 < (walkTrace t i addrs).2.2.size := by
  intro addrs
  induction addrs with
  | nil => intro t i hc hi; exact ⟨hc, hi⟩
  | cons a rest ih =>
    intro t i hc hi
    rw [walkTrace_cons]
    obtain ⟨hc2, hterm⟩ := ChildrenLt_matchChild i a hc hi
    have hlt : (matchChild t i a).2.1 < (matchChild t i a).2.2.size := hterm
    exact ih _ _ hc2 hlt

/-- Reachable-state invariant used by Claim C3: a phantom node has no block
children (no concrete trace ever went through it) and has never been
simulated.  Boolean so that witnesses can discharge it by evaluation. -/
def phantomInvB (t : Tree) : Bool :=
  (List.range t.size).all (fun j =>
    !(t.get j).phantom ||
      ((t.get j).blockChildren.isEmpty && ((t.get j).sim_try == 0)))

theorem phantomInvB_spec {t : Tree} (hp : phantomInvB t = true) :
    ∀ j, (t.get j).phantom = true →
      (t.get j).blockChildren = [] ∧ (t.get j).sim_try = 0 := by
  intro j hj
  have hjs : j < t.size := lt_size_of_phantom hj
  have := List.all_eq_true.mp hp j (List.mem_range.mpr hjs)
  simp only [hj, Bool.not_true, Bool.false_or, Bool.and_eq_true,
    List.isEmpty_iff, beq_iff_eq] at this
  exact this

/-- The key step of Claim C3: under the phantom invariant, a walk reporting a
new path either created a node or ended at a node that had `sim_try == 0`
when the walk started (the freshly-materialised-phantom case). -/
theorem walk_new :
    ∀ (addrs : List Int) (t : Tree) (i : Nat),
      (∀ j, (t.get j).phantom = true →
        (t.get j).blockChildren = [] ∧ (t.get j).sim_try = 0) →
      (t.get i).phantom = false →
      (walkTrace t i addrs).1 = true →
      t.size < (walkTrace t i addrs).2.2.size ∨
        (t.get (walkTrace t i addrs).2.1).sim_try = 0 := by
  intro addrs
  induction addrs with
  | nil => intro t i _ _ h; exact absurd h (by simp [walkTrace_nil])
  | cons a rest ih =>
    intro t i hinv hi hnew
    rw [walkTrace_cons] at hnew ⊢
    dsimp only [] at hnew ⊢
    cases hlk : lookupChild (t.get i) a with
    | none =>
      -- a child was created: the arena strictly grew and the walk only grows
      left
      have hmc : (matchChild t i a).2.2.size = t.size + 1 :=
        matchChild_size_create hlk
      have h1 := walk_size_mono rest (matchChild t i a).2.2
        (matchChild t i a).2.1
      omega
    | some c =>
      rw [matchChild_found hlk] at hnew ⊢
      dsimp only [] at hnew ⊢
      set t1 := t.modify c (fun n => { n with phantom := false }) with ht1
      have ht1size : t1.size = t.size := Tree.size_modify t c _
      have ht1fields : ∀ j,
          (t1.get j).blockChildren = (t.get j).blockChildren ∧
          (t1.get j).sim_try = (t.get j).sim_try := by
        intro j
        constructor
        · exact field_get_modify (fun m => m.blockChildren) t c
            (fun n => { n with phantom := false }) j (fun m => rfl)
        · exact field_get_modify (fun m => m.sim_try) t c
            (fun n => { n with phantom := false }) j (fun m => rfl)
      cases hph : (t.get c).phantom with
      | false =>
        -- an ordinary re-visit: the bit comes from the rest of the walk
        rw [hph] at hnew
        simp only [Bool.false_or] at hnew
        have hinv1 : ∀ j, (t1.get j).phantom = true →
            (t1.get j).blockChildren = [] ∧ (t1.get j).sim_try = 0 := by
          intro j hj
          have hjt : (t.get j).phantom = true := by
            by_cases hjc : c = j ∧ c < t.size
            · rw [ht1, Tree.get_modify, if_pos hjc] at hj
              exact absurd hj (by simp)
            · rw [ht1, Tree.get_modify, if_neg hjc] at hj
              exact hj
          rw [(ht1fields j).1, (ht1fields j).2]
          exact hinv j hjt
        have hc1 : (t1.get c).phantom = false := by
          by_cases hcs : c < t.size
          · rw [ht1, Tree.get_modify, if_pos ⟨rfl, hcs⟩]
          · rw [ht1, Tree.get_modify, if_neg (by omega)]
            exact hph
        rcases ih t1 c hinv1 hc1 hnew with hgrow | hterm
        · left
          rw [← ht1size]
          exact hgrow
        · right
          rw [← (ht1fields (walkTrace t1 c rest).2.1).2]
          exact hterm
      | true =>
        -- a phantom was cleared
        obtain ⟨hbc, hst⟩ := hinv c hph
        cases rest with
        | nil =>
          -- the phantom is the terminal node: `sim_try` was 0 at the start
          right
          rw [walkTrace_nil]
          exact hst
        | cons b rest2 =>
          -- the walk continues below the phantom, which has no block child:
          -- the next step necessarily creates a node
          left
          have hbc1 : (t1.get c).blockChildren = [] := by
            rw [(ht1fields c).1]
            exact hbc
          rw [walkTrace_cons]
          have hmc : (matchChild t1 c b).2.2.size = t1.size + 1 :=
            matchChild_size_create (lookupChild_nil hbc1 b)
          have h1 := walk_size_mono rest2 (matchChild t1 c b).2.2
            (matchChild t1 c b).2.1
          dsimp only []
          omega

theorem integratePath_cons (t : Tree) (a : Int) (rest : List Int) :
    integratePath t (a :: rest) =
      if a ≠ (t.get 0).addr then none
      else
        some (((walkTrace t 0 rest).1 ||
            (((walkTrace t 0 rest).2.2.get
              (walkTrace t 0 rest).2.1).sim_try == 0)),
          (walkTrace t 0 rest).2.2.modify (walkTrace t 0 rest).2.1
            (fun n =>
              { n with sim_try := if n.sim_try = 0 then 1 else n.sim_try })) :=
  rfl

/-- Claim C3: a trace integrated by `integrate_path` is reported new iff a
child node was created during its walk or the terminal node had
`sim_try == 0` when the integration started, and afterwards the terminal
node's `sim_try` is at least 1.  The hypotheses are the reachable-state
invariants: well-formed arena, phantom nodes are childless and unsimulated,
and the root is real (never a phantom). -/
theorem legion_c3 (t : Tree) (a : Int) (rest : List Int) (b : Bool)
    (t2 : Tree) (hw : WF t = true) (hpi : phantomInvB t = true)
    (hroot : (t.get 0).phantom = false) (hsz : 0 < t.size)
    (hint : integratePath t (a :: rest) = some (b, t2)) :
    (b = true ↔ (t.size < t2.size ∨
      (t.get (walkTrace t 0 rest).2.1).sim_try = 0)) ∧
    1 ≤ (t2.get (walkTrace t 0 rest).2.1).sim_try := by
  rw [integratePath_cons] at hint
  split_ifs at hint with ha
  simp only [Option.some.injEq, Prod.mk.injEq] at hint
  obtain ⟨hb, ht2⟩ := hint
  have hterm := walk_term rest t 0 (ChildrenLt_of_WF hw) hsz
  have hsize2 : t2.size = (walkTrace t 0 rest).2.2.size := by
    rw [← ht2, Tree.size_modify]
  constructor
  · constructor
    · intro hbt
      rw [← hb] at hbt
      rcases Bool.or_eq_true_iff.mp hbt with hwk | hsim
      · rcases walk_new rest t 0 (phantomInvB_spec hpi) hroot hwk with
          hg | hs
        · left
          rw [hsize2]
          exact hg
        · right
          exact hs
      · right
        rw [← walk_simtry rest t 0 (walkTrace t 0 rest).2.1]
        simpa using hsim
    · intro hdisj
      rw [← hb]
      rcases hdisj with hg | hs
      · rw [hsize2] at hg
        rw [walk_growth rest t 0 hg]
        simp
      · have hz : ((walkTrace t 0 rest).2.2.get
            (walkTrace t 0 rest).2.1).sim_try = 0 := by
          rw [walk_simtry]
          exact hs
        rw [hz]
        simp
  · rw [← ht2, Tree.get_modify, if_pos ⟨rfl, hterm.2⟩]
    dsimp only []
    split_ifs with h0
    · exact Nat.le_refl 1
    · omega

/-- A three-node tree (Red root with a Gold child and one White block child)
on which `integrate_path` both re-visits an existing child and creates a new
one. -/
def tC : Tree := ⟨[
  { addr := 0, colour := .R, blockChildren := [(1, 2)], simChild := some 1 },
  { addr := 0, parent := some 0, colour := .G, state := some { addr := 0 } },
  { addr := 1, parent := some 0, colour := .W }]⟩

/-- The tree `integrate_path` produces from `tC` on the trace `[0, 1, 7]`:
a fresh white node at address 7 below node 2, whose `sim_try` is clamped
to 1. -/
def tC3 : Tree := ⟨[
  { addr := 0, colour := .R, blockChildren := [(1, 2)], simChild := some 1 },
  { addr := 0, parent := some 0, colour := .G, state := some { addr := 0 } },
  { addr := 1, parent := some 0, colour := .W, blockChildren := [(7, 3)] },
  { addr := 7, parent := some 2, sim_try := 1 }]⟩

theorem legion_c3_witness :
    (true = true ↔ (tC.size < tC3.size ∨
      (tC.get (walkTrace tC 0 [1, 7]).2.1).sim_try = 0)) ∧
    1 ≤ (tC3.get (walkTrace tC 0 [1, 7]).2.1).sim_try :=
  legion_c3 tC 0 [1, 7] true tC3 (by decide) (by decide) (by decide)
    (by decide) (by decide)


/-! ### Structural equality and the propagation step -/

/-- `t2` has the same shape as `t`: same arena size and, per node, the same
children, address, colour and simulation child.  Statistics updates
(`record_simulation`, back-propagation) and flag updates are `StructEq`. -/
def StructEq (t t2 : Tree) : Prop :=
  t2.size = t.size ∧
  ∀ j, (t2.get j).blockChildren = (t.get j).blockChildren ∧
    (t2.get j).addr = (t.get j).addr ∧
    (t2.get j).colour = (t.get j).colour ∧
    (t2.get j).simChild = (t.get j).simChild

theorem StructEq.refl_se (t : Tree) : StructEq t t :=
  ⟨rfl, fun _ => ⟨rfl, rfl, rfl, rfl⟩⟩

theorem StructEq.trans_se {t t1 t2 : Tree} (h1 : StructEq t t1)
    (h2 : StructEq t1 t2) : StructEq t t2 := by
  refine ⟨h2.1.trans h1.1, fun j => ?_⟩
  obtain ⟨a1, b1, c1, d1⟩ := h1.2 j
  obtain ⟨a2, b2, c2, d2⟩ := h2.2 j
  exact ⟨a2.trans a1, b2.trans b1, c2.trans c1, d2.trans d1⟩

theorem StructEq.of_modify_se (t : Tree) (i : Nat) (f : TreeNode → TreeNode)
    (hf : ∀ m, (f m).blockChildren = m.blockChildren ∧ (f m).addr = m.addr ∧
      (f m).colour = m.colour ∧ (f m).simChild = m.simChild) :
    StructEq t (t.modify i f) := by
  refine ⟨Tree.size_modify t i f, fun j => ?_⟩
  exact ⟨field_get_modify (fun m => m.blockChildren) t i f j
      (fun m => (hf m).1),
    field_get_modify (fun m => m.addr) t i f j (fun m => (hf m).2.1),
    field_get_modify (fun m => m.colour) t i f j (fun m => (hf m).2.2.1),
    field_get_modify (fun m => m.simChild) t i f j (fun m => (hf m).2.2.2)⟩

theorem StructEq.of_feonly_se {t t2 : Tree} (h : FEonly t t2) : StructEq t t2 :=
  ⟨h.1, fun j => ⟨h.blockChildren_eq j, h.addr_eq j, h.colour_eq j,
    h.simChild_eq j⟩⟩

theorem WF_of_StructEq {t t2 : Tree} (h : StructEq t t2) (hw : WF t = true) :
    WF t2 = true := by
  apply WF_intro
  intro j hj
  rw [h.1] at hj
  have hs := WF_spec hw j
  obtain ⟨hbc, haddr, hcol, hsim⟩ := h.2 j
  refine ⟨?_, ?_, ?_, ?_⟩
  · intro pr hpr
    rw [hbc] at hpr
    rcases hs.1 pr hpr with ⟨h1, h2, h3⟩
    obtain ⟨_, ha2, hc2, _⟩ := h.2 pr.2
    exact ⟨by rw [h.1]; exact h1, ha2.trans h2, by rw [hc2]; exact h3⟩
  · rw [hbc]
    exact hs.2.1
  · intro g hg
    rw [hsim] at hg
    rcases hs.2.2.1 g hg with ⟨h1, h2⟩
    obtain ⟨_, _, hc2, _⟩ := h.2 g
    exact ⟨by rw [h.1]; exact h1, hc2.trans h2⟩
  · intro hG
    rw [hcol] at hG
    rcases hs.2.2.2 hG with ⟨h1, h2⟩
    exact ⟨by rw [hbc]; exact h1, by rw [hsim]; exact h2⟩

theorem FEonly.simwin_eq {t t2 : Tree} (h : FEonly t t2) (j : Nat) :
    (t2.get j).sim_win = (t.get j).sim_win := by rw [(h.2 j).1]

theorem recordSimulation_structEq (t : Tree) (i : Nat) (isNew : Bool) :
    StructEq t (recordSimulation t i isNew) := by
  unfold recordSimulation
  dsimp only []
  cases hg : ((t.modify i (fun n =>
      { n with sim_win := n.sim_win + (if isNew then 1 else 0),
               sim_try := n.sim_try + 1 })).get i).simChild with
  | none =>
    exact StructEq.of_modify_se t i (fun n =>
      { n with sim_win := n.sim_win + (if isNew then 1 else 0),
               sim_try := n.sim_try + 1 }) (fun m => ⟨rfl, rfl, rfl, rfl⟩)
  | some g =>
    exact (StructEq.of_modify_se t i (fun n =>
      { n with sim_win := n.sim_win + (if isNew then 1 else 0),
               sim_try := n.sim_try + 1 })
        (fun m => ⟨rfl, rfl, rfl, rfl⟩)).trans_se
      (StructEq.of_modify_se _ g (fun n => { n with sim_try := n.sim_try + 1 })
        (fun m => ⟨rfl, rfl, rfl, rfl⟩))

theorem recordSimulation_simwin_ne {t : Tree} {i : Nat} {isNew : Bool}
    {j : Nat} (hj : j ≠ i) :
    ((recordSimulation t i isNew).get j).sim_win = (t.get j).sim_win := by
  unfold recordSimulation
  dsimp only []
  cases hg : ((t.modify i (fun n =>
      { n with sim_win := n.sim_win + (if isNew then 1 else 0),
               sim_try := n.sim_try + 1 })).get i).simChild with
  | none =>
    dsimp only []
    rw [Tree.get_modify, if_neg (fun hc => hj hc.1.symm)]
  | some g =>
    dsimp only []
    rw [field_get_modify (fun m => m.sim_win) _ g
      (fun n => { n with sim_try := n.sim_try + 1 }) j (fun m => rfl)]
    rw [Tree.get_modify, if_neg (fun hc => hj hc.1.symm)]

theorem recordSimulation_gold_bump {t : Tree} {i : Nat} {isNew : Bool}
    {g : Nat} (hg : (t.get i).simChild = some g) (hgne : g ≠ i)
    (hgs : g < t.size) :
    ((recordSimulation t i isNew).get g).sim_try = (t.get g).sim_try + 1 ∧
    ((recordSimulation t i isNew).get g).sim_win = (t.get g).sim_win := by
  unfold recordSimulation
  dsimp only []
  have hsim1 : ((t.modify i (fun n =>
      { n with sim_win := n.sim_win + (if isNew then 1 else 0),
               sim_try := n.sim_try + 1 })).get i).simChild = some g := by
    rw [field_get_modify (fun m => m.simChild) t i (fun n =>
      { n with sim_win := n.sim_win + (if isNew then 1 else 0),
               sim_try := n.sim_try + 1 }) i (fun m => rfl)]
    exact hg
  rw [hsim1]
  dsimp only []
  have hglt : g < (t.modify i (fun n =>
      { n with sim_win := n.sim_win + (if isNew then 1 else 0),
               sim_try := n.sim_try + 1 })).size := by
    rw [Tree.size_modify]; exact hgs
  have hge : (t.modify i (fun n =>
      { n with sim_win := n.sim_win + (if isNew then 1 else 0),
               sim_try := n.sim_try + 1 })).get g = t.get g := by
    rw [Tree.get_modify, if_neg (fun hc => hgne hc.1.symm)]
  constructor
  · rw [Tree.get_modify, if_pos ⟨rfl, hglt⟩, hge]
  · rw [Tree.get_modify, if_pos ⟨rfl, hglt⟩, hge]

theorem walkRecord_gold :
    ∀ (rest : List Int) (t : Tree) (i : Nat) (isNew : Bool) (term : Nat)
      (t2 : Tree), WF t = true →
      (∀ j, (t.get j).colour = .G → (t.get j).sim_win = 0) →
      walkRecord isNew t i rest = some (term, t2) →
      WF t2 = true ∧ StructEq t t2 ∧
      (∀ j, (t2.get j).colour = .G → (t2.get j).sim_win = 0) := by
  intro rest
  induction rest with
  | nil =>
    intro t i isNew term t2 hw hinv h
    simp only [walkRecord, Option.some.injEq, Prod.mk.injEq] at h
    rw [← h.2]
    exact ⟨hw, StructEq.refl_se t, hinv⟩
  | cons a rest ih =>
    intro t i isNew term t2 hw hinv h
    unfold walkRecord at h
    cases hlk : lookupChild (t.get i) a with
    | none => rw [hlk] at h; exact absurd h (by simp)
    | some c =>
      rw [hlk] at h
      have hcng : (t.get c).colour ≠ .G :=
        ((WF_spec hw i).1 (a, c) (lookupChild_mem hlk)).2.2
      have hst : StructEq t (recordSimulation t c isNew) :=
        recordSimulation_structEq t c isNew
      have hw1 : WF (recordSimulation t c isNew) = true :=
        WF_of_StructEq hst hw
      have hinv1 : ∀ j, ((recordSimulation t c isNew).get j).colour = .G →
          ((recordSimulation t c isNew).get j).sim_win = 0 := by
        intro j hjG
        rw [(hst.2 j).2.2.1] at hjG
        have hjc : j ≠ c := fun he => hcng (he ▸ hjG)
        rw [recordSimulation_simwin_ne hjc]
        exact hinv j hjG
      obtain ⟨hw2, hst2, hinv2⟩ := ih _ c isNew term t2 hw1 hinv1 h
      exact ⟨hw2, hst.trans_se hst2, hinv2⟩

theorem propagateTrace_gold (fuel : Nat) (t : Tree) (trace : List Int)
    (isNew : Bool) (t2 : Tree) (hw : WF t = true)
    (hroot : (t.get 0).colour ≠ .G)
    (hinv : ∀ j, (t.get j).colour = .G → (t.get j).sim_win = 0)
    (h : propagateExecutionTrace fuel t trace isNew = some t2) :
    WF t2 = true ∧ (t2.get 0).colour ≠ .G ∧
    (∀ j, (t2.get j).colour = .G → (t2.get j).sim_win = 0) := by
  unfold propagateExecutionTrace at h
  cases trace with
  | nil => exact absurd h (by simp)
  | cons a rest =>
    dsimp only [] at h
    split_ifs at h with ha
    have hst : StructEq t (recordSimulation t 0 isNew) :=
      recordSimulation_structEq t 0 isNew
    have hw1 : WF (recordSimulation t 0 isNew) = true :=
      WF_of_StructEq hst hw
    have hinv1 : ∀ j, ((recordSimulation t 0 isNew).get j).colour = .G →
        ((recordSimulation t 0 isNew).get j).sim_win = 0 := by
      intro j hjG
      rw [(hst.2 j).2.2.1] at hjG
      have hj0 : j ≠ 0 := fun he => hroot (he ▸ hjG)
      rw [recordSimulation_simwin_ne hj0]
      exact hinv j hjG
    cases hwr : walkRecord isNew (recordSimulation t 0 isNew) 0 rest with
    | none => rw [hwr] at h; exact absurd h (by simp)
    | some pr =>
      rw [hwr] at h
      obtain ⟨term, tw⟩ := pr
      obtain ⟨hw2, hst2, hinv2⟩ :=
        walkRecord_gold rest _ 0 isNew term tw hw1 hinv1 hwr
      have hfe : FEonly tw t2 := FEonly.of_markFE fuel h
      have hstT : StructEq t t2 :=
        (hst.trans_se hst2).trans_se (StructEq.of_feonly_se hfe)
      refine ⟨WF_of_FEonly hfe hw2, ?_, ?_⟩
      · rw [(hstT.2 0).2.2.1]
        exact hroot
      · intro j hjG
        rw [hfe.colour_eq j] at hjG
        rw [hfe.simwin_eq j]
        exact hinv2 j hjG

theorem propagateTraces_gold :
    ∀ (prs : List (List Int × Bool)) (fuel : Nat) (t : Tree) (t2 : Tree),
      WF t = true → (t.get 0).colour ≠ .G →
      (∀ j, (t.get j).colour = .G → (t.get j).sim_win = 0) →
      propagateExecutionTraces fuel t prs = some t2 →
      WF t2 = true ∧ (t2.get 0).colour ≠ .G ∧
      (∀ j, (t2.get j).colour = .G → (t2.get j).sim_win = 0) := by
  intro prs
  induction prs with
  | nil =>
    intro fuel t t2 hw hroot hinv h
    simp only [propagateExecutionTraces, Option.some.injEq] at h
    rw [← h]
    exact ⟨hw, hroot, hinv⟩
  | cons p rest ih =>
    intro fuel t t2 hw hroot hinv h
    unfold propagateExecutionTraces at h
    cases hp : propagateExecutionTrace fuel t p.1 p.2 with
    | none => rw [hp] at h; exact absurd h (by simp)
    | some t1 =>
      rw [hp] at h
      obtain ⟨hw1, hroot1, hinv1⟩ :=
        propagateTrace_gold fuel t p.1 p.2 t1 hw hroot hinv hp
      exact ih fuel t1 t2 hw1 hroot1 hinv1 h

/-- Claim C10: a Gold node\'s `sim_win` stays 0 through forward propagation
of execution traces (gold nodes never lie on a trace walk, and
`record_simulation` bumps only the Gold child\'s `sim_try`); hence the
exploit term `sim_win / sel_try` of a Gold node\'s UCT score is always 0. -/
theorem legion_c10 :
    (∀ (fuel : Nat) (t : Tree) (prs : List (List Int × Bool)) (t2 : Tree),
      WF t = true → (t.get 0).colour ≠ .G →
      (∀ j, (t.get j).colour = .G → (t.get j).sim_win = 0) →
      propagateExecutionTraces fuel t prs = some t2 →
      ∀ j, (t2.get j).colour = .G → (t2.get j).sim_win = 0) ∧
    (∀ (t : Tree) (i : Nat) (isNew : Bool) (g : Nat),
      (t.get i).simChild = some g → g ≠ i → g < t.size →
      ((recordSimulation t i isNew).get g).sim_try = (t.get g).sim_try + 1 ∧
      ((recordSimulation t i isNew).get g).sim_win = (t.get g).sim_win) ∧
    (∀ (t : Tree) (i : Nat), (t.get i).sim_win = 0 → exploitTerm t i = 0) := by
  refine ⟨?_, ?_, ?_⟩
  · intro fuel t prs t2 hw hroot hinv h
    exact (propagateTraces_gold prs fuel t t2 hw hroot hinv h).2.2
  · intro t i isNew g hg hgne hgs
    exact recordSimulation_gold_bump hg hgne hgs
  · intro t i h
    simp [exploitTerm, h]

/-- Evaluable form of the gold-`sim_win`-zero invariant, for witnesses. -/
theorem goldZero_of_bool {t : Tree}
    (h : (List.range t.size).all (fun j =>
      !((t.get j).colour == .G) || ((t.get j).sim_win == 0)) = true) :
    ∀ j, (t.get j).colour = .G → (t.get j).sim_win = 0 := by
  intro j hj
  by_cases hjs : j < t.size
  · have := List.all_eq_true.mp h j (List.mem_range.mpr hjs)
    simp only [hj, beq_self_eq_true, Bool.not_true, Bool.false_or,
      beq_iff_eq] at this
    exact this
  · rw [Tree.get_oob t j hjs] at hj
    exact absurd hj (by decide)

/-- The tree produced by propagating the trace `[0, 1]` (a new path) through
the `tM` arena: statistics are bumped along the walk and the terminal chain
is marked fully explored; the Gold node 1 keeps `sim_win = 0`. -/
def tM3 : Tree := ⟨[
  { addr := 0, colour := .R, blockChildren := [(1, 2)], simChild := some 1,
    sel_try := 3, sim_try := 1, sim_win := 1, fully_explored := true },
  { addr := 0, parent := some 0, colour := .G,
    state := some { addr := 0 }, sim_try := 1, fully_explored := true },
  { addr := 1, parent := some 0, colour := .B, sel_try := 1, sim_try := 1,
    sim_win := 1, fully_explored := true }]⟩

theorem legion_c10_witness : (tM3.get 1).sim_win = 0 :=
  legion_c10.1 5 tM [([0, 1], true)] tM3 (by decide) (by decide)
    (goldZero_of_bool (by decide)) (by decide) 1 (by rfl)


/-! ### The colour semilattice and node preservation -/

/-- Relation holding between the arena before and after every tree operation
of a run: the arena only grows, a node that is not White keeps its colour,
and no child link (block or Simulation) is ever removed. -/
def Preserves (t t2 : Tree) : Prop :=
  t.size ≤ t2.size ∧
  (∀ j, j < t.size → (t.get j).colour ≠ .W →
    (t2.get j).colour = (t.get j).colour) ∧
  (∀ j, j < t.size → ∀ pr ∈ (t.get j).blockChildren,
    pr ∈ (t2.get j).blockChildren) ∧
  (∀ j, j < t.size → ∀ g, (t.get j).simChild = some g →
    (t2.get j).simChild = some g)

theorem Preserves.refl_pres (t : Tree) : Preserves t t :=
  ⟨Nat.le_refl _, fun _ _ _ => rfl, fun _ _ _ h => h, fun _ _ _ h => h⟩

theorem Preserves.trans_pres {t t1 t2 : Tree} (h1 : Preserves t t1)
    (h2 : Preserves t1 t2) : Preserves t t2 := by
  refine ⟨Nat.le_trans h1.1 h2.1, ?_, ?_, ?_⟩
  · intro j hj hW
    have e1 := h1.2.1 j hj hW
    have e2 := h2.2.1 j (Nat.lt_of_lt_of_le hj h1.1) (by rw [e1]; exact hW)
    exact e2.trans e1
  · intro j hj pr hpr
    exact h2.2.2.1 j (Nat.lt_of_lt_of_le hj h1.1) pr (h1.2.2.1 j hj pr hpr)
  · intro j hj g hg
    exact h2.2.2.2 j (Nat.lt_of_lt_of_le hj h1.1) g (h1.2.2.2 j hj g hg)

theorem Preserves.of_structEq {t t2 : Tree} (h : StructEq t t2) :
    Preserves t t2 := by
  refine ⟨Nat.le_of_eq h.1.symm, ?_, ?_, ?_⟩
  · intro j _ _; exact (h.2 j).2.2.1
  · intro j _ pr hpr; rw [(h.2 j).1]; exact hpr
  · intro j _ g hg; rw [(h.2 j).2.2.2]; exact hg

theorem Preserves.of_feonly_pres {t t2 : Tree} (h : FEonly t t2) :
    Preserves t t2 :=
  Preserves.of_structEq (StructEq.of_feonly_se h)

/-- `dye` is only ever applied to a White node: its first `debug_assertion`. -/
theorem dye_white {t : Tree} {i : Nat} {c : Colour} {st : Option SymState}
    {sm : Option (List (Option Nat))} {t2 : Tree}
    (h : dye t i c st sm = some t2) : (t.get i).colour = .W := by
  unfold dye at h
  by_cases h1 : (t.get i).colour ≠ .W
  · rw [if_pos h1] at h
    exact absurd h (by simp)
  · push_neg at h1
    exact h1

/-- What the red branch of `dye` builds, plus the assertions it checked. -/
theorem dye_red_cases {t : Tree} {i : Nat} {st : Option SymState}
    {sm : Option (List (Option Nat))} {t2 : Tree}
    (h : dye t i .R st sm = some t2) :
    t2 = dyeLeaf ((t.push { addr := (t.get i).addr, parent := some i }).modify
      i (fun n => { n with colour := .R, simChild := some t.size }))
      t.size .G st sm ∧
    (t.get i).colour = .W ∧ (t.get i).simChild = none := by
  have hW := dye_white h
  unfold dye at h
  rw [if_neg (by rw [hW]; simp)] at h
  by_cases hg : ((Colour.R = Colour.B) ∨ Option.isSome st = true)
  · rw [if_neg (not_not_intro hg), if_pos rfl] at h
    by_cases hS : Option.isSome (t.get i).simChild = true
    · rw [if_pos hS] at h
      exact absurd h (by simp)
    · rw [if_neg hS] at h
      dsimp only [] at h
      refine ⟨(Option.some.inj h).symm, hW, ?_⟩
      simpa using hS
  · rw [if_pos hg] at h
    exact absurd h (by simp)

/-- The old entries of the arena after a red `dye`: only the target changes,
from White to Red with the fresh Simulation link. -/
theorem dye_red_eq {t : Tree} {i : Nat} {st : Option SymState}
    {sm : Option (List (Option Nat))} {t2 : Tree}
    (h : dye t i .R st sm = some t2) :
    t2.size = t.size + 1 ∧
    ∀ j, j < t.size → t2.get j =
      (if i = j then { t.get j with colour := .R, simChild := some t.size }
       else t.get j) := by
  obtain ⟨ht2, hW, hsim⟩ := dye_red_cases h
  subst ht2
  constructor
  · unfold dyeLeaf
    rw [Tree.size_modify, Tree.size_modify, Tree.size_push]
  · intro j hj
    have hjs : j ≠ t.size := Nat.ne_of_lt hj
    unfold dyeLeaf
    rw [Tree.get_modify, if_neg (fun hc => hjs hc.1.symm)]
    rw [Tree.get_modify]
    by_cases hij : i = j
    · subst hij
      rw [if_pos ⟨rfl, by rw [Tree.size_push]; omega⟩, if_pos rfl]
      rw [Tree.get_push, if_neg hjs]
    · rw [if_neg (fun hc => hij hc.1), if_neg hij]
      rw [Tree.get_push, if_neg hjs]

/-- The fresh node of a red `dye` is the Gold Simulation child: it carries the
state and samples, points back to the freshly-Red target and shares its
address. -/
theorem dye_red_gold {t : Tree} {i : Nat} {st : Option SymState}
    {sm : Option (List (Option Nat))} {t2 : Tree}
    (h : dye t i .R st sm = some t2) (hi : i < t.size) :
    t2.get t.size =
      { addr := (t.get i).addr, parent := some i, colour := .G,
        state := st, samples := sm } := by
  obtain ⟨ht2, hW, hsim⟩ := dye_red_cases h
  subst ht2
  have hii : i ≠ t.size := Nat.ne_of_lt hi
  unfold dyeLeaf
  rw [Tree.get_modify,
    if_pos ⟨rfl, by rw [Tree.size_modify, Tree.size_push]; omega⟩]
  rw [Tree.get_modify, if_neg (fun hc => hii hc.1)]
  rw [Tree.get_push, if_pos rfl]

/-- The non-red branches of `dye` only touch the target node. -/
theorem dye_leaf_eq {t : Tree} {i : Nat} {c : Colour} {st : Option SymState}
    {sm : Option (List (Option Nat))} {t2 : Tree}
    (h : dye t i c st sm = some t2) (hc : c ≠ .R) :
    t2.size = t.size ∧
    ∀ j, t2.get j =
      (if i = j ∧ i < t.size then
        { t.get j with colour := c, state := st, samples := sm }
       else t.get j) := by
  have hW := dye_white h
  unfold dye at h
  rw [if_neg (by rw [hW]; simp)] at h
  by_cases hg : (c = Colour.B ∨ Option.isSome st = true)
  · rw [if_neg (not_not_intro hg), if_neg hc] at h
    rw [← Option.some.inj h]
    constructor
    · unfold dyeLeaf
      rw [Tree.size_modify]
    · intro j
      unfold dyeLeaf
      rw [Tree.get_modify]
      by_cases hij : i = j ∧ i < t.size
      · rw [if_pos hij, if_pos hij, hij.1]
      · rw [if_neg hij, if_neg hij]
  · rw [if_pos hg] at h
    exact absurd h (by simp)

theorem dye_preserves {t : Tree} {i : Nat} {c : Colour}
    {st : Option SymState} {sm : Option (List (Option Nat))} {t2 : Tree}
    (h : dye t i c st sm = some t2) : Preserves t t2 := by
  by_cases hc : c = .R
  · subst hc
    obtain ⟨hsz, heq⟩ := dye_red_eq h
    have hsim0 := (dye_red_cases h).2.2
    refine ⟨by omega, ?_, ?_, ?_⟩
    · intro j hj hW
      rw [heq j hj]
      split_ifs with hij
      · exact absurd (by rw [← hij]; exact dye_white h) hW
      · rfl
    · intro j hj pr hpr
      rw [heq j hj]
      split_ifs with hij
      · exact hpr
      · exact hpr
    · intro j hj g hg
      rw [heq j hj]
      split_ifs with hij
      · exfalso
        rw [← hij] at hg
        rw [hsim0] at hg
        exact absurd hg (by simp)
      · exact hg
  · obtain ⟨hsz, heq⟩ := dye_leaf_eq h hc
    refine ⟨by omega, ?_, ?_, ?_⟩
    · intro j hj hW
      rw [heq j]
      split_ifs with hij
      · exact absurd (by rw [← hij.1]; exact dye_white h) hW
      · rfl
    · intro j hj pr hpr
      rw [heq j]
      split_ifs with hij
      · exact hpr
      · exact hpr
    · intro j hj g hg
      rw [heq j]
      split_ifs with hij
      · exact hg
      · exact hg

/-- Claim C9, `dye` part: colours of already-existing nodes other than the
target are untouched; the target goes White to `c`; a black `dye` creates
nothing; a red `dye` creates exactly the Gold Simulation child at the moment
the target turns Red. -/
theorem dye_changes {t : Tree} {i : Nat} {c : Colour} {st : Option SymState}
    {sm : Option (List (Option Nat))} {t2 : Tree}
    (h : dye t i c st sm = some t2) (hi : i < t.size) :
    (∀ j, j < t.size → j ≠ i → (t2.get j).colour = (t.get j).colour) ∧
    ((c = .R ∨ c = .B) → (t2.get i).colour = c) ∧
    (c = .B → t2.size = t.size) ∧
    (c = .R → t2.size = t.size + 1 ∧ (t2.get t.size).colour = .G ∧
      (t2.get t.size).parent = some i ∧
      (t2.get t.size).addr = (t.get i).addr ∧
      (t2.get i).simChild = some t.size) := by
  by_cases hc : c = .R
  · subst hc
    obtain ⟨hsz, heq⟩ := dye_red_eq h
    have hgold := dye_red_gold h hi
    refine ⟨?_, ?_, ?_, ?_⟩
    · intro j hj hji
      rw [heq j hj, if_neg (fun he => hji he.symm)]
    · intro _
      rw [heq i hi, if_pos rfl]
    · intro hB
      exact absurd hB.symm (by simp)
    · intro _
      refine ⟨hsz, ?_, ?_, ?_, ?_⟩
      · rw [hgold]
      · rw [hgold]
      · rw [hgold]
      · rw [heq i hi, if_pos rfl]
  · obtain ⟨hsz, heq⟩ := dye_leaf_eq h hc
    refine ⟨?_, ?_, ?_, ?_⟩
    · intro j hj hji
      rw [heq j, if_neg (fun he => hji he.1.symm)]
    · intro hrb
      rcases hrb with hR | hB
      · exact absurd hR hc
      · rw [heq i, if_pos ⟨rfl, hi⟩, hB]
    · intro _
      exact hsz
    · intro hR
      exact absurd hR hc


theorem Preserves.of_push (t : Tree) (n : TreeNode) :
    Preserves t (t.push n) := by
  refine ⟨by rw [Tree.size_push]; omega, ?_, ?_, ?_⟩
  · intro j hj _
    rw [Tree.get_push, if_neg (Nat.ne_of_lt hj)]
  · intro j hj pr hpr
    rw [Tree.get_push, if_neg (Nat.ne_of_lt hj)]
    exact hpr
  · intro j hj g hg
    rw [Tree.get_push, if_neg (Nat.ne_of_lt hj)]
    exact hg

theorem Preserves.of_modify_pres (t : Tree) (i : Nat) (f : TreeNode → TreeNode)
    (hcol : (t.get i).colour = .W ∨ (f (t.get i)).colour = (t.get i).colour)
    (hbc : ∀ pr ∈ (t.get i).blockChildren, pr ∈ (f (t.get i)).blockChildren)
    (hsim : ∀ g, (t.get i).simChild = some g →
      (f (t.get i)).simChild = some g) :
    Preserves t (t.modify i f) := by
  refine ⟨by rw [Tree.size_modify], ?_, ?_, ?_⟩
  · intro j hj hW
    rw [Tree.get_modify]
    split_ifs with hc
    · obtain ⟨rfl, _⟩ := hc
      rcases hcol with hL | hR
      · exact absurd hL hW
      · exact hR
    · rfl
  · intro j hj pr hpr
    rw [Tree.get_modify]
    split_ifs with hc
    · obtain ⟨rfl, _⟩ := hc
      exact hbc pr hpr
    · exact hpr
  · intro j hj g hg
    rw [Tree.get_modify]
    split_ifs with hc
    · obtain ⟨rfl, _⟩ := hc
      exact hsim g hg
    · exact hg

theorem setChildKey_mem {n : TreeNode} {a : Int} (c : Nat)
    (h : lookupChild n a = none) :
    ∀ pr ∈ n.blockChildren, pr ∈ (setChildKey n a c).blockChildren := by
  intro pr hpr
  rw [setChildKey_of_absent c h]
  exact List.mem_append_left _ hpr

theorem matchChild_preserves (t : Tree) (i : Nat) (a : Int) :
    Preserves t (matchChild t i a).2.2 := by
  cases hlk : lookupChild (t.get i) a with
  | some c =>
    rw [matchChild_found hlk]
    exact Preserves.of_structEq (StructEq.of_modify_se t c
      (fun n => { n with phantom := false }) (fun m => ⟨rfl, rfl, rfl, rfl⟩))
  | none =>
    rw [matchChild_create hlk]
    refine (Preserves.of_push t _).trans_pres
      (Preserves.of_modify_pres _ i _ ?_ ?_ ?_)
    · right
      exact (setChildKey_sim _ a t.size).2.2.1
    · intro pr hpr
      by_cases hit : i = t.size
      · rw [Tree.get_push, if_pos hit] at hpr
        exact absurd hpr (by simp)
      · rw [Tree.get_push, if_neg hit] at hpr ⊢
        exact setChildKey_mem t.size hlk pr hpr
    · intro g hg
      rw [(setChildKey_sim _ a t.size).1]
      exact hg

theorem lookupChild_none_of_not_isSome {n : TreeNode} {a : Int}
    (h : ¬ (lookupChild n a).isSome = true) : lookupChild n a = none := by
  cases he : lookupChild n a with
  | none => rfl
  | some x => exact absurd (by rw [he]; rfl) h

theorem addPhantom_preserves {t : Tree} {p : Nat} {st : SymState} {t2 : Tree}
    (h : addPhantom t p st = some t2) : Preserves t t2 := by
  unfold addPhantom at h
  split_ifs at h with hlk
  dsimp only [] at h
  cases hd : dye ((t.push { addr := st.addr, parent := some p }).modify p
      (fun n => setChildKey n st.addr t.size)) t.size .R (some st) none with
  | none => rw [hd] at h; exact absurd h (by simp)
  | some t3 =>
    rw [hd] at h
    simp only [Option.map_some', Option.some.injEq] at h
    rw [← h]
    have hlast : Preserves t3 (t3.modify t.size
        (fun n => { n with phantom := true })) :=
      Preserves.of_structEq (StructEq.of_modify_se t3 t.size
        (fun n => { n with phantom := true })
        (fun m => ⟨rfl, rfl, rfl, rfl⟩))
    have hmid : Preserves (t.push { addr := st.addr, parent := some p })
        ((t.push { addr := st.addr, parent := some p }).modify p
          (fun n => setChildKey n st.addr t.size)) := by
      refine Preserves.of_modify_pres _ p _ ?_ ?_ ?_
      · right
        exact (setChildKey_sim _ st.addr t.size).2.2.1
      · intro pr hpr
        by_cases hpt : p = t.size
        · rw [Tree.get_push, if_pos hpt] at hpr
          exact absurd hpr (by simp)
        · rw [Tree.get_push, if_neg hpt] at hpr ⊢
          exact setChildKey_mem t.size
            (lookupChild_none_of_not_isSome hlk) pr hpr
      · intro g hg
        rw [(setChildKey_sim _ st.addr t.size).1]
        exact hg
    exact ((Preserves.of_push t _).trans_pres hmid).trans_pres
      ((dye_preserves hd).trans_pres hlast)

/-- Claim C9, `add_phantom` part: two nodes are created — a Red phantom under
`p` carrying the state\'s address, and its Gold Simulation child — and every
pre-existing node keeps its colour. -/
theorem addPhantom_spec {t : Tree} {p : Nat} {st : SymState} {t2 : Tree}
    (h : addPhantom t p st = some t2) (hp : p < t.size) :
    t2.size = t.size + 2 ∧
    (∀ j, j < t.size → (t2.get j).colour = (t.get j).colour) ∧
    (t2.get t.size).colour = .R ∧ (t2.get t.size).phantom = true ∧
    (t2.get t.size).addr = st.addr ∧ (t2.get t.size).parent = some p ∧
    (t2.get t.size).simChild = some (t.size + 1) ∧
    (t2.get (t.size + 1)).colour = .G := by
  unfold addPhantom at h
  split_ifs at h with hlk
  dsimp only [] at h
  cases hd : dye ((t.push { addr := st.addr, parent := some p }).modify p
      (fun n => setChildKey n st.addr t.size)) t.size .R (some st) none with
  | none => rw [hd] at h; exact absurd h (by simp)
  | some t3 =>
    rw [hd] at h
    simp only [Option.map_some', Option.some.injEq] at h
    set tm := (t.push { addr := st.addr, parent := some p }).modify p
      (fun n => setChildKey n st.addr t.size) with htm
    have htmsize : tm.size = t.size + 1 := by
      rw [htm, Tree.size_modify, Tree.size_push]
    obtain ⟨h3size, h3eq⟩ := dye_red_eq hd
    have h3gold := dye_red_gold hd (by omega)
    have htmcid : tm.get t.size = { addr := st.addr, parent := some p } := by
      rw [htm, Tree.get_modify, if_neg (fun hc => (Nat.ne_of_lt hp) hc.1)]
      rw [Tree.get_push, if_pos rfl]
    have h3cid : t3.get t.size =
        { addr := st.addr, parent := some p, colour := .R,
          simChild := some tm.size } := by
      rw [h3eq t.size (by omega), if_pos rfl, htmcid]
    have ht2size : t2.size = t.size + 2 := by
      rw [← h, Tree.size_modify, h3size, htmsize]
    refine ⟨ht2size, ?_, ?_, ?_, ?_, ?_, ?_, ?_⟩
    · intro j hj
      rw [← h]
      rw [field_get_modify (fun m => m.colour) t3 t.size
        (fun n => { n with phantom := true }) j (fun m => rfl)]
      rw [h3eq j (by omega), if_neg (by omega)]
      rw [htm, field_get_modify (fun m => m.colour) _ p
        (fun n => setChildKey n st.addr t.size) j
        (fun m => (setChildKey_sim m st.addr t.size).2.2.1)]
      rw [field_get_push (fun m => m.colour) t
        { addr := st.addr, parent := some p } j rfl]
    · rw [← h, Tree.get_modify,
        if_pos ⟨rfl, by rw [h3size, htmsize]; omega⟩, h3cid]
    · rw [← h, Tree.get_modify,
        if_pos ⟨rfl, by rw [h3size, htmsize]; omega⟩]
    · rw [← h, Tree.get_modify,
        if_pos ⟨rfl, by rw [h3size, htmsize]; omega⟩, h3cid]
    · rw [← h, Tree.get_modify,
        if_pos ⟨rfl, by rw [h3size, htmsize]; omega⟩, h3cid]
    · rw [← h, Tree.get_modify,
        if_pos ⟨rfl, by rw [h3size, htmsize]; omega⟩, h3cid, htmsize]
    · rw [← h, Tree.get_modify, if_neg (by omega)]
      rw [← htmsize, h3gold]

theorem matchNodeStates_preserves :
    ∀ (cs : List Nat) (t : Tree) (st : SymState) (b : Bool) (t2 : Tree),
      matchNodeStates t st cs = some (b, t2) → Preserves t t2 := by
  intro cs
  induction cs with
  | nil =>
    intro t st b t2 h
    simp only [matchNodeStates, Option.some.injEq, Prod.mk.injEq] at h
    rw [← h.2]
    exact Preserves.refl_pres t
  | cons c rest ih =>
    intro t st b t2 h
    unfold matchNodeStates at h
    split_ifs at h with haddr
    · cases hd : dye t c .R (some st) none with
      | none => rw [hd] at h; exact absurd h (by simp)
      | some t3 =>
        rw [hd] at h
        simp only [Option.map_some', Option.some.injEq, Prod.mk.injEq] at h
        rw [← h.2]
        exact dye_preserves hd
    · exact ih t st b t2 h

theorem dyeStates_preserves :
    ∀ (sts : List SymState) (p : Nat) (t : Tree) (t2 : Tree),
      dyeStates p t sts = some t2 → Preserves t t2 := by
  intro sts
  induction sts with
  | nil =>
    intro p t t2 h
    simp only [dyeStates, Option.some.injEq] at h
    rw [← h]
    exact Preserves.refl_pres t
  | cons st rest ih =>
    intro p t t2 h
    unfold dyeStates at h
    cases hm : matchNodeStates t st (nonGoldChildren t p) with
    | none => rw [hm] at h; exact absurd h (by simp)
    | some pr =>
      rw [hm] at h
      obtain ⟨matched, t1⟩ := pr
      have hp1 : Preserves t t1 :=
        matchNodeStates_preserves (nonGoldChildren t p) t st matched t1 hm
      cases hmatched : matched with
      | true =>
        rw [hmatched] at h
        simp only [if_true] at h
        exact hp1.trans_pres (ih p t1 t2 h)
      | false =>
        rw [hmatched] at h
        simp only [Bool.false_eq_true, if_false] at h
        cases hap : addPhantom t1 p st with
        | none => rw [hap] at h; exact absurd h (by simp)
        | some t1b =>
          rw [hap] at h
          exact (hp1.trans_pres (addPhantom_preserves hap)).trans_pres (ih p t1b t2 h)

/-- Any successful `dye_siblings` run falls in exactly one of the three
stopping cases of the protocol. -/
theorem dyeSiblings_cases {symex : SymState → List SymState} {fuel : Nat}
    {t : Tree} {child : Nat} {t2 : Tree}
    (h : dyeSiblings symex fuel t child = some t2) :
    ∃ sibStates, symexToMatch symex fuel t child = some sibStates ∧
      ((sibStates = [] ∧ dyeEmpty fuel t child = some t2) ∨
       (∃ st, sibStates = [st] ∧ dyeSingle t child st = some t2) ∨
       (sibStates.length > 1 ∧ dyeDiverge t child sibStates = some t2)) := by
  unfold dyeSiblings at h
  cases hsx : symexToMatch symex fuel t child with
  | none => rw [hsx] at h; exact absurd h (by simp)
  | some sibStates =>
    rw [hsx] at h
    dsimp only [] at h
    refine ⟨sibStates, rfl, ?_⟩
    cases sibStates with
    | nil =>
      left
      simp only [List.isEmpty_nil, if_true] at h
      cases he : dyeEmpty fuel t child with
      | none => rw [he] at h; exact absurd h (by simp)
      | some t1 =>
        rw [he] at h
        dsimp only [] at h
        rw [dif_neg (by simp)] at h
        dsimp only [] at h
        rw [if_neg (by simp)] at h
        exact ⟨rfl, h⟩
    | cons s rest =>
      simp only [List.isEmpty_cons, Bool.false_eq_true, if_false] at h
      cases rest with
      | nil =>
        right; left
        rw [dif_pos (by simp)] at h
        dsimp only [List.head_cons] at h
        cases hs : dyeSingle t child s with
        | none => rw [hs] at h; exact absurd h (by simp)
        | some tb =>
          rw [hs] at h
          dsimp only [] at h
          rw [if_neg (by simp)] at h
          exact ⟨s, rfl, hs.trans h⟩
      | cons s2 rest2 =>
        right; right
        rw [dif_neg (by simp)] at h
        dsimp only [] at h
        rw [if_pos (by simp only [List.length_cons]; omega)] at h
        exact ⟨by simp only [List.length_cons]; omega, h⟩

theorem dyeEmpty_preserves {fuel : Nat} {t : Tree} {child : Nat} {t2 : Tree}
    (h : dyeEmpty fuel t child = some t2) : Preserves t t2 := by
  unfold dyeEmpty at h
  dsimp only [] at h
  cases hp : ((t.modify child
      (fun n => { n with fully_explored := true })).get child).parent with
  | none => rw [hp] at h; exact absurd h (by simp)
  | some p =>
    rw [hp] at h
    exact (Preserves.of_feonly_pres (FEonly.of_markNode t child)).trans_pres
      (Preserves.of_feonly_pres (FEonly.of_markFE fuel h))

theorem dyeSingle_preserves {t : Tree} {child : Nat} {st : SymState}
    {t2 : Tree} (h : dyeSingle t child st = some t2) : Preserves t t2 := by
  unfold dyeSingle at h
  split_ifs at h with haddr
  exact dye_preserves h

theorem dyeDiverge_preserves {t : Tree} {child : Nat}
    {sibStates : List SymState} {t2 : Tree}
    (h : dyeDiverge t child sibStates = some t2) : Preserves t t2 := by
  unfold dyeDiverge at h
  cases hpp : (t.get child).parent with
  | none => rw [hpp] at h; exact absurd h (by simp)
  | some p =>
    rw [hpp] at h
    dsimp only [] at h
    cases hds : dyeStates p t sibStates with
    | none => rw [hds] at h; exact absurd h (by simp)
    | some t3 =>
      rw [hds] at h
      dsimp only [] at h
      split_ifs at h with hall
      exact (dyeStates_preserves sibStates p t t3 hds).trans_pres
        ((Option.some.inj h) ▸ Preserves.refl_pres t3)

theorem dyeSiblings_preserves {symex : SymState → List SymState} {fuel : Nat}
    {t : Tree} {child : Nat} {t2 : Tree}
    (h : dyeSiblings symex fuel t child = some t2) : Preserves t t2 := by
  obtain ⟨sib, _, hcase⟩ := dyeSiblings_cases h
  rcases hcase with ⟨_, he⟩ | ⟨st, _, hs⟩ | ⟨_, hd⟩
  · exact dyeEmpty_preserves he
  · exact dyeSingle_preserves hs
  · exact dyeDiverge_preserves hd

theorem walk_preserves :
    ∀ (addrs : List Int) (t : Tree) (i : Nat),
      Preserves t (walkTrace t i addrs).2.2 := by
  intro addrs
  induction addrs with
  | nil => intro t i; exact Preserves.refl_pres t
  | cons a rest ih =>
    intro t i
    rw [walkTrace_cons]
    exact (matchChild_preserves t i a).trans_pres (ih _ _)

theorem integratePath_preserves {t : Tree} {trace : List Int} {b : Bool}
    {t2 : Tree} (h : integratePath t trace = some (b, t2)) :
    Preserves t t2 := by
  cases trace with
  | nil => exact absurd h (by simp [integratePath])
  | cons a rest =>
    rw [integratePath_cons] at h
    split_ifs at h with ha
    simp only [Option.some.injEq, Prod.mk.injEq] at h
    rw [← h.2]
    refine (walk_preserves rest t 0).trans_pres
      (Preserves.of_structEq (StructEq.of_modify_se _ _ _
        (fun m => ⟨rfl, rfl, rfl, rfl⟩)))

theorem walkRecord_structEq :
    ∀ (rest : List Int) (t : Tree) (i : Nat) (isNew : Bool) (term : Nat)
      (t2 : Tree), walkRecord isNew t i rest = some (term, t2) →
      StructEq t t2 := by
  intro rest
  induction rest with
  | nil =>
    intro t i isNew term t2 h
    simp only [walkRecord, Option.some.injEq, Prod.mk.injEq] at h
    rw [← h.2]
    exact StructEq.refl_se t
  | cons a rest ih =>
    intro t i isNew term t2 h
    unfold walkRecord at h
    cases hlk : lookupChild (t.get i) a with
    | none => rw [hlk] at h; exact absurd h (by simp)
    | some c =>
      rw [hlk] at h
      exact (recordSimulation_structEq t c isNew).trans_se (ih _ c isNew term t2 h)

theorem propagateTrace_preserves {fuel : Nat} {t : Tree} {trace : List Int}
    {isNew : Bool} {t2 : Tree}
    (h : propagateExecutionTrace fuel t trace isNew = some t2) :
    Preserves t t2 := by
  unfold propagateExecutionTrace at h
  cases trace with
  | nil => exact absurd h (by simp)
  | cons a rest =>
    dsimp only [] at h
    split_ifs at h with ha
    cases hwr : walkRecord isNew (recordSimulation t 0 isNew) 0 rest with
    | none => rw [hwr] at h; exact absurd h (by simp)
    | some pr =>
      rw [hwr] at h
      obtain ⟨term, tw⟩ := pr
      exact ((Preserves.of_structEq (recordSimulation_structEq t 0
          isNew)).trans_pres
        (Preserves.of_structEq (walkRecord_structEq rest _ 0 isNew term tw
          hwr))).trans_pres
        (Preserves.of_feonly_pres (FEonly.of_markFE fuel h))

theorem propagateTraces_preserves :
    ∀ (prs : List (List Int × Bool)) (fuel : Nat) (t : Tree) (t2 : Tree),
      propagateExecutionTraces fuel t prs = some t2 → Preserves t t2 := by
  intro prs
  induction prs with
  | nil =>
    intro fuel t t2 h
    simp only [propagateExecutionTraces, Option.some.injEq] at h
    rw [← h]
    exact Preserves.refl_pres t
  | cons p rest ih =>
    intro fuel t t2 h
    unfold propagateExecutionTraces at h
    cases hp : propagateExecutionTrace fuel t p.1 p.2 with
    | none => rw [hp] at h; exact absurd h (by simp)
    | some t1 =>
      rw [hp] at h
      exact (propagateTrace_preserves hp).trans_pres (ih fuel t1 t2 h)

theorem appFuzzing_preserves {maxS minS fuel : Nat} {t : Tree} {i : Nat}
    {rs : List (List Nat)} {t2 : Tree}
    (h : appFuzzing maxS minS fuel t i = some (rs, t2)) : Preserves t t2 := by
  unfold appFuzzing at h
  cases hst : (t.get i).state with
  | none => rw [hst] at h; exact absurd h (by simp)
  | some s =>
    rw [hst] at h
    simp only [] at h
    cases hloop : appLoop maxS minS ((s.stdinBits + 7) / 8)
        (((t.get i).samples).getD s.sampleStream) [] with
    | none => rw [hloop] at h; exact absurd h (by simp)
    | some trip =>
      rw [hloop] at h
      obtain ⟨results, remaining, exhausted⟩ := trip
      simp only [] at h
      have hp1 : Preserves t (t.modify i
          (fun m => { m with samples := some remaining })) :=
        Preserves.of_structEq (StructEq.of_modify_se t i _
          (fun m => ⟨rfl, rfl, rfl, rfl⟩))
      by_cases hex : exhausted = true
      · rw [hex, if_pos rfl] at h
        cases hm : markFE fuel ((t.modify i
            (fun m => { m with samples := some remaining })).modify i
            (fun m => { m with fully_explored := true })) i with
        | none => rw [hm] at h; exact absurd h (by simp)
        | some t3 =>
          rw [hm] at h
          simp only [Option.some.injEq, Prod.mk.injEq] at h
          rw [← h.2]
          exact (hp1.trans_pres (Preserves.of_feonly_pres (FEonly.of_markNode _ i))).trans_pres
            (Preserves.of_feonly_pres (FEonly.of_markFE fuel hm))
      · simp only [Bool.not_eq_true] at hex
        rw [hex] at h
        simp only [Bool.false_eq_true, if_false, Option.some.injEq,
          Prod.mk.injEq] at h
        rw [← h.2]
        exact hp1

/-- Claim C9: the colour discipline of a run.  (a) `dye` touches only White
nodes; (b) with the colours the source ever passes (Red or Black) the target
goes White to `c`, every other existing node keeps its colour, a black dye
creates nothing and a red dye creates exactly the Gold Simulation child of
the newly-Red node; (c) `add_phantom` creates a Red phantom and its Gold
child and recolours nothing; (d) every tree operation of the run preserves
non-White colours, never removes a node and never unlinks a child. -/
theorem legion_c9 :
    (∀ (t : Tree) (i : Nat) (c : Colour) (st : Option SymState)
        (sm : Option (List (Option Nat))) (t2 : Tree),
      dye t i c st sm = some t2 → (t.get i).colour = .W) ∧
    (∀ (t : Tree) (i : Nat) (c : Colour) (st : Option SymState)
        (sm : Option (List (Option Nat))) (t2 : Tree),
      dye t i c st sm = some t2 → i < t.size →
      (∀ j, j < t.size → j ≠ i → (t2.get j).colour = (t.get j).colour) ∧
      ((c = .R ∨ c = .B) → (t2.get i).colour = c) ∧
      (c = .B → t2.size = t.size) ∧
      (c = .R → t2.size = t.size + 1 ∧ (t2.get t.size).colour = .G ∧
        (t2.get t.size).parent = some i ∧
        (t2.get t.size).addr = (t.get i).addr ∧
        (t2.get i).simChild = some t.size)) ∧
    (∀ (t : Tree) (p : Nat) (st : SymState) (t2 : Tree),
      addPhantom t p st = some t2 → p < t.size →
      t2.size = t.size + 2 ∧
      (∀ j, j < t.size → (t2.get j).colour = (t.get j).colour) ∧
      (t2.get t.size).colour = .R ∧ (t2.get t.size).phantom = true ∧
      (t2.get t.size).addr = st.addr ∧ (t2.get t.size).parent = some p ∧
      (t2.get t.size).simChild = some (t.size + 1) ∧
      (t2.get (t.size + 1)).colour = .G) ∧
    (∀ (t : Tree) (i : Nat) (c : Colour) (st : Option SymState)
        (sm : Option (List (Option Nat))) (t2 : Tree),
      dye t i c st sm = some t2 → Preserves t t2) ∧
    (∀ (t : Tree) (i : Nat) (a : Int), Preserves t (matchChild t i a).2.2) ∧
    (∀ (t : Tree) (p : Nat) (st : SymState) (t2 : Tree),
      addPhantom t p st = some t2 → Preserves t t2) ∧
    (∀ (fuel : Nat) (t : Tree) (i : Nat) (t2 : Tree),
      markFE fuel t i = some t2 → Preserves t t2) ∧
    (∀ (t : Tree) (trace : List Int) (b : Bool) (t2 : Tree),
      integratePath t trace = some (b, t2) → Preserves t t2) ∧
    (∀ (symex : SymState → List SymState) (fuel : Nat) (t : Tree)
        (child : Nat) (t2 : Tree),
      dyeSiblings symex fuel t child = some t2 → Preserves t t2) ∧
    (∀ (maxS minS fuel : Nat) (t : Tree) (i : Nat) (rs : List (List Nat))
        (t2 : Tree),
      appFuzzing maxS minS fuel t i = some (rs, t2) → Preserves t t2) ∧
    (∀ (fuel : Nat) (t : Tree) (prs : List (List Int × Bool)) (t2 : Tree),
      propagateExecutionTraces fuel t prs = some t2 → Preserves t t2) := by
  refine ⟨?_, ?_, ?_, ?_, ?_, ?_, ?_, ?_, ?_, ?_, ?_⟩
  · intro t i c st sm t2 h
    exact dye_white h
  · intro t i c st sm t2 h hi
    exact dye_changes h hi
  · intro t p st t2 h hp
    exact addPhantom_spec h hp
  · intro t i c st sm t2 h
    exact dye_preserves h
  · intro t i a
    exact matchChild_preserves t i a
  · intro t p st t2 h
    exact addPhantom_preserves h
  · intro fuel t i t2 h
    exact Preserves.of_feonly_pres (FEonly.of_markFE fuel h)
  · intro t trace b t2 h
    exact integratePath_preserves h
  · intro symex fuel t child t2 h
    exact dyeSiblings_preserves h
  · intro maxS minS fuel t i rs t2 h
    exact appFuzzing_preserves h
  · intro fuel t prs t2 h
    exact propagateTraces_preserves prs fuel t t2 h

/-- A black `dye` of the white node 2 of `tC`. -/
def tCB : Tree := ⟨[
  { addr := 0, colour := .R, blockChildren := [(1, 2)], simChild := some 1 },
  { addr := 0, parent := some 0, colour := .G, state := some { addr := 0 } },
  { addr := 1, parent := some 0, colour := .B,
    state := some { addr := 1, sid := 1 } }]⟩

theorem legion_c9_witness : (tC.get 2).colour = .W :=
  legion_c9.1 tC 2 .B (some { addr := 1, sid := 1 }) none tCB (by decide)

/-! ### Colour evolution and well-formedness through the dyeing pipeline -/

/-- `add_phantom` does not recolour any pre-existing node. -/
theorem addPhantom_colour {t : Tree} {p : Nat} {st : SymState} {t2 : Tree}
    (h : addPhantom t p st = some t2) :
    ∀ j, j < t.size → (t2.get j).colour = (t.get j).colour := by
  unfold addPhantom at h
  split_ifs at h with hlk
  dsimp only [] at h
  cases hd : dye ((t.push { addr := st.addr, parent := some p }).modify p
      (fun n => setChildKey n st.addr t.size)) t.size .R (some st) none with
  | none => rw [hd] at h; exact absurd h (by simp)
  | some t3 =>
    rw [hd] at h
    simp only [Option.map_some', Option.some.injEq] at h
    intro j hj
    obtain ⟨h3size, h3eq⟩ := dye_red_eq hd
    rw [← h]
    rw [field_get_modify (fun m => m.colour) t3 t.size
      (fun n => { n with phantom := true }) j (fun m => rfl)]
    rw [h3eq j (by rw [Tree.size_modify, Tree.size_push]; omega),
      if_neg (by omega)]
    rw [field_get_modify (fun m => m.colour) _ p
      (fun n => setChildKey n st.addr t.size) j
      (fun m => (setChildKey_sim m st.addr t.size).2.2.1)]
    rw [field_get_push (fun m => m.colour) t
      { addr := st.addr, parent := some p } j rfl]

/-- `match_node_states` leaves existing colours alone except for the single
child it dyes Red, which was White. -/
theorem matchNodeStates_colour :
    ∀ (cs : List Nat) (t : Tree) (st : SymState) (b : Bool) (t2 : Tree),
      matchNodeStates t st cs = some (b, t2) →
      ∀ j, j < t.size → (t2.get j).colour = (t.get j).colour ∨
        ((t.get j).colour = .W ∧ (t2.get j).colour = .R) := by
  intro cs
  induction cs with
  | nil =>
    intro t st b t2 h j hj
    simp only [matchNodeStates, Option.some.injEq, Prod.mk.injEq] at h
    rw [← h.2]
    exact Or.inl rfl
  | cons c rest ih =>
    intro t st b t2 h j hj
    unfold matchNodeStates at h
    split_ifs at h with haddr
    · cases hd : dye t c .R (some st) none with
      | none => rw [hd] at h; exact absurd h (by simp)
      | some t3 =>
        rw [hd] at h
        simp only [Option.map_some', Option.some.injEq, Prod.mk.injEq] at h
        rw [← h.2]
        obtain ⟨h3size, h3eq⟩ := dye_red_eq hd
        rw [h3eq j hj]
        split_ifs with hcj
        · right
          refine ⟨by rw [← hcj]; exact dye_white hd, rfl⟩
        · exact Or.inl rfl
    · exact ih t st b t2 h j hj

/-- The whole diverging loop of `dye_siblings` only recolours White nodes,
and only to Red. -/
theorem dyeStates_colour :
    ∀ (sts : List SymState) (p : Nat) (t : Tree) (t2 : Tree),
      dyeStates p t sts = some t2 →
      ∀ j, j < t.size → (t2.get j).colour = (t.get j).colour ∨
        ((t.get j).colour = .W ∧ (t2.get j).colour = .R) := by
  intro sts
  induction sts with
  | nil =>
    intro p t t2 h j hj
    simp only [dyeStates, Option.some.injEq] at h
    rw [← h]
    exact Or.inl rfl
  | cons st rest ih =>
    intro p t t2 h j hj
    unfold dyeStates at h
    cases hm : matchNodeStates t st (nonGoldChildren t p) with
    | none => rw [hm] at h; exact absurd h (by simp)
    | some pr =>
      rw [hm] at h
      obtain ⟨matched, t1⟩ := pr
      have hsz1 : t.size ≤ t1.size :=
        (matchNodeStates_preserves _ t st matched t1 hm).1
      have hc1 := matchNodeStates_colour _ t st matched t1 hm j hj
      cases hmatched : matched with
      | true =>
        rw [hmatched] at h
        simp only [if_true] at h
        rcases ih p t1 t2 h j (by omega) with he | ⟨hW, hR⟩
        · rcases hc1 with he1 | ⟨hW1, hR1⟩
          · exact Or.inl (he.trans he1)
          · exact Or.inr ⟨hW1, by rw [he]; exact hR1⟩
        · rcases hc1 with he1 | ⟨hW1, hR1⟩
          · exact Or.inr ⟨by rw [← he1]; exact hW, hR⟩
          · exact Or.inr ⟨hW1, hR⟩
      | false =>
        rw [hmatched] at h
        simp only [Bool.false_eq_true, if_false] at h
        cases hap : addPhantom t1 p st with
        | none => rw [hap] at h; exact absurd h (by simp)
        | some t1b =>
          rw [hap] at h
          have hsz1b : t1.size ≤ t1b.size := (addPhantom_preserves hap).1
          have hcap := addPhantom_colour hap j (by omega)
          rcases ih p t1b t2 h j (by omega) with he | ⟨hW, hR⟩
          · rcases hc1 with he1 | ⟨hW1, hR1⟩
            · exact Or.inl ((he.trans hcap).trans he1)
            · exact Or.inr ⟨hW1, by rw [he, hcap]; exact hR1⟩
          · rcases hc1 with he1 | ⟨hW1, hR1⟩
            · exact Or.inr ⟨by rw [← he1, ← hcap]; exact hW, hR⟩
            · exact Or.inr ⟨hW1, hR⟩

theorem childIds_lt {t : Tree} (hw : WF t = true) (j : Nat) :
    ∀ c ∈ childIds (t.get j), c < t.size := by
  intro c hc
  unfold childIds at hc
  rcases List.mem_append.mp hc with hb | hs
  · obtain ⟨pr, hpr, hpr2⟩ := List.mem_map.mp hb
    have := ((WF_spec hw j).1 pr hpr).1
    omega
  · cases hsc : (t.get j).simChild with
    | none => rw [hsc] at hs; exact absurd hs (by simp)
    | some g =>
      rw [hsc] at hs
      simp only [Option.toList_some, List.mem_singleton] at hs
      rw [hs]
      exact ((WF_spec hw j).2.2.1 g hsc).1

theorem WF_push_fresh {t : Tree} (hw : WF t = true) (a : Int)
    (pi : Option Nat) : WF (t.push { addr := a, parent := pi }) = true := by
  apply WF_intro
  intro j hj
  rw [Tree.size_push] at hj
  by_cases hjs : j = t.size
  · subst hjs
    rw [Tree.get_push, if_pos rfl]
    refine ⟨by simp, by simp, by simp, by simp⟩
  · rw [Tree.get_push, if_neg hjs]
    have hjlt : j < t.size := by omega
    have hs := WF_spec hw j
    refine ⟨?_, hs.2.1, ?_, ?_⟩
    · intro pr hpr
      rcases hs.1 pr hpr with ⟨h1, h2, h3⟩
      rw [Tree.size_push]
      rw [Tree.get_push, if_neg (Nat.ne_of_lt h1)]
      exact ⟨by omega, h2, h3⟩
    · intro g hg
      rcases hs.2.2.1 g hg with ⟨h1, h2⟩
      rw [Tree.size_push, Tree.get_push, if_neg (Nat.ne_of_lt h1)]
      exact ⟨by omega, h2⟩
    · exact hs.2.2.2

/-- Registering a fresh, correctly-addressed, non-Gold child under a
non-Gold parent keeps the arena well formed. -/
theorem WF_setChild_fresh {t : Tree} {p : Nat} {a : Int} {c : Nat}
    (hw : WF t = true) (hfresh : lookupChild (t.get p) a = none)
    (hclt : c < t.size) (haddr : (t.get c).addr = a)
    (hcg : (t.get c).colour ≠ .G) (hpg : (t.get p).colour ≠ .G) :
    WF (t.modify p (fun n => setChildKey n a c)) = true := by
  apply WF_intro
  intro j hj
  rw [Tree.size_modify] at hj
  have hget : ∀ k, (t.modify p (fun n => setChildKey n a c)).get k =
      if p = k ∧ p < t.size then setChildKey (t.get p) a c else t.get k := by
    intro k
    rw [Tree.get_modify]
  have hfields : ∀ k, ((t.modify p (fun n => setChildKey n a c)).get k).addr =
      (t.get k).addr ∧
      ((t.modify p (fun n => setChildKey n a c)).get k).colour =
      (t.get k).colour ∧
      ((t.modify p (fun n => setChildKey n a c)).get k).simChild =
      (t.get k).simChild := by
    intro k
    rw [hget k]
    split_ifs with hc
    · obtain ⟨rfl, _⟩ := hc
      exact ⟨(setChildKey_sim _ a c).2.1, (setChildKey_sim _ a c).2.2.1,
        (setChildKey_sim _ a c).1⟩
    · exact ⟨rfl, rfl, rfl⟩
  rw [hget j]
  split_ifs with hc
  · obtain ⟨rfl, _⟩ := hc
    rw [setChildKey_of_absent c hfresh]
    have hs := WF_spec hw p
    refine ⟨?_, ?_, ?_, ?_⟩
    · intro pr hpr
      rcases List.mem_append.mp hpr with hold | hnew
      · rcases hs.1 pr hold with ⟨h1, h2, h3⟩
        rw [Tree.size_modify, (hfields pr.2).1, (hfields pr.2).2.1]
        exact ⟨h1, h2, h3⟩
      · simp only [List.mem_singleton] at hnew
        rw [hnew]
        rw [Tree.size_modify, (hfields c).1, (hfields c).2.1]
        exact ⟨hclt, haddr, hcg⟩
    · simp only [List.map_append, List.map_cons, List.map_nil]
      rw [List.nodup_append]
      refine ⟨hs.2.1, List.nodup_singleton a, ?_⟩
      intro x hx
      simp only [List.mem_singleton]
      intro hxa
      subst hxa
      obtain ⟨pr, hpr, hpra⟩ := List.mem_map.mp hx
      exact (lookupChild_none_not_mem hfresh pr hpr) hpra
    · intro g hg
      have hg2 : (t.get p).simChild = some g := hg
      rcases hs.2.2.1 g hg2 with ⟨h1, h2⟩
      rw [Tree.size_modify, (hfields g).2.1]
      exact ⟨h1, h2⟩
    · intro hG
      have hG2 : (t.get p).colour = .G := hG
      exact absurd hG2 hpg
  · have hs := WF_spec hw j
    refine ⟨?_, hs.2.1, ?_, ?_⟩
    · intro pr hpr
      rcases hs.1 pr hpr with ⟨h1, h2, h3⟩
      rw [Tree.size_modify, (hfields pr.2).1, (hfields pr.2).2.1]
      exact ⟨h1, h2, h3⟩
    · intro g hg
      rcases hs.2.2.1 g hg with ⟨h1, h2⟩
      rw [Tree.size_modify, (hfields g).2.1]
      exact ⟨h1, h2⟩
    · intro hG
      rcases hs.2.2.2 hG with ⟨h1, h2⟩
      exact ⟨h1, h2⟩

/-- A node holding a block child is not Gold (Gold nodes are childless). -/
theorem parent_not_gold {t : Tree} {p : Nat} {a : Int} {w : Nat}
    (hw : WF t = true) (hlink : lookupChild (t.get p) a = some w) :
    (t.get p).colour ≠ .G := by
  intro hG
  have hempty := ((WF_spec hw p).2.2.2 hG).1
  have hmem := lookupChild_mem hlink
  rw [hempty] at hmem
  exact absurd hmem (by simp)

/-- `dye` to a non-Gold colour keeps the arena well formed. -/
theorem WF_dye {t : Tree} {i : Nat} {c : Colour} {st : Option SymState}
    {sm : Option (List (Option Nat))} {t2 : Tree}
    (h : dye t i c st sm = some t2) (hw : WF t = true) (hi : i < t.size)
    (hc : c ≠ .G) : WF t2 = true := by
  have hW := dye_white h
  by_cases hcr : c = .R
  · subst hcr
    obtain ⟨hsz, heq⟩ := dye_red_eq h
    have hgold := dye_red_gold h hi
    have haddr2 : ∀ k, k < t.size → (t2.get k).addr = (t.get k).addr := by
      intro k hk
      rw [heq k hk]
      split_ifs <;> rfl
    have hbc2 : ∀ k, k < t.size →
        (t2.get k).blockChildren = (t.get k).blockChildren := by
      intro k hk
      rw [heq k hk]
      split_ifs <;> rfl
    have hcolne : ∀ k, k < t.size → (t.get k).colour ≠ .G →
        (t2.get k).colour ≠ .G := by
      intro k hk hkg
      rw [heq k hk]
      split_ifs with hik
      · exact fun hh => Colour.noConfusion hh
      · exact hkg
    apply WF_intro
    intro j hj
    rw [hsz] at hj
    by_cases hjtop : j = t.size
    · subst hjtop
      rw [hgold]
      exact ⟨by simp, by simp, by simp, fun _ => ⟨rfl, rfl⟩⟩
    · have hjlt : j < t.size := by omega
      have hs := WF_spec hw j
      rw [heq j hjlt]
      by_cases hij : i = j
      · rw [if_pos hij]
        subst hij
        refine ⟨?_, hs.2.1, ?_, ?_⟩
        · intro pr hpr
          have hold := hs.1 pr hpr
          rw [hsz, haddr2 pr.2 hold.1]
          exact ⟨by omega, hold.2.1, hcolne pr.2 hold.1 hold.2.2⟩
        · intro g hg
          have hg2 : some t.size = some g := hg
          rw [← Option.some.inj hg2, hsz, hgold]
          exact ⟨by omega, rfl⟩
        · intro hG
          exact absurd hG (fun hh => Colour.noConfusion hh)
      · rw [if_neg hij]
        refine ⟨?_, hs.2.1, ?_, ?_⟩
        · intro pr hpr
          have hold := hs.1 pr hpr
          rw [hsz, haddr2 pr.2 hold.1]
          exact ⟨by omega, hold.2.1, hcolne pr.2 hold.1 hold.2.2⟩
        · intro g hg
          have hold := hs.2.2.1 g hg
          have hgi : i ≠ g := by
            intro hh
            rw [← hh] at hold
            rw [hW] at hold
            exact Colour.noConfusion hold.2
          rw [hsz]
          refine ⟨by omega, ?_⟩
          rw [heq g hold.1, if_neg hgi]
          exact hold.2
        · intro hG
          exact hs.2.2.2 hG
  · obtain ⟨hsz, heq⟩ := dye_leaf_eq h hcr
    have haddr2 : ∀ k, (t2.get k).addr = (t.get k).addr := by
      intro k
      rw [heq k]
      split_ifs <;> rfl
    have hbc2 : ∀ k, (t2.get k).blockChildren = (t.get k).blockChildren := by
      intro k
      rw [heq k]
      split_ifs <;> rfl
    have hsc2 : ∀ k, (t2.get k).simChild = (t.get k).simChild := by
      intro k
      rw [heq k]
      split_ifs <;> rfl
    have hcolne : ∀ k, (t.get k).colour ≠ .G → (t2.get k).colour ≠ .G := by
      intro k hkg
      rw [heq k]
      split_ifs with hik
      · exact fun hh => hc hh
      · exact hkg
    apply WF_intro
    intro j hj
    rw [hsz] at hj
    have hs := WF_spec hw j
    rw [hbc2 j, hsc2 j]
    refine ⟨?_, hs.2.1, ?_, ?_⟩
    · intro pr hpr
      have hold := hs.1 pr hpr
      rw [hsz, haddr2 pr.2]
      exact ⟨hold.1, hold.2.1, hcolne pr.2 hold.2.2⟩
    · intro g hg
      have hold := hs.2.2.1 g hg
      have hgi : ¬(i = g ∧ i < t.size) := by
        intro hh
        rw [← hh.1] at hold
        rw [hW] at hold
        exact Colour.noConfusion hold.2
      rw [hsz]
      refine ⟨hold.1, ?_⟩
      rw [heq g, if_neg hgi]
      exact hold.2
    · intro hG
      have hjcol : (t.get j).colour = .G := by
        by_contra hne
        exact hcolne j hne hG
      exact hs.2.2.2 hjcol

/-- Modifying one node without touching its address, colour, children or
Simulation link keeps the arena well formed. -/
theorem WF_modify_inert {t : Tree} (i : Nat) (f : TreeNode → TreeNode)
    (hf : ∀ m, (f m).addr = m.addr ∧ (f m).colour = m.colour ∧
      (f m).blockChildren = m.blockChildren ∧ (f m).simChild = m.simChild)
    (hw : WF t = true) : WF (t.modify i f) = true := by
  have haddr2 : ∀ k, ((t.modify i f).get k).addr = (t.get k).addr := by
    intro k
    rw [Tree.get_modify]
    split_ifs with hik
    · rw [(hf (t.get i)).1, hik.1]
    · rfl
  have hbc2 : ∀ k, ((t.modify i f).get k).blockChildren =
      (t.get k).blockChildren := by
    intro k
    rw [Tree.get_modify]
    split_ifs with hik
    · rw [(hf (t.get i)).2.2.1, hik.1]
    · rfl
  have hsc2 : ∀ k, ((t.modify i f).get k).simChild = (t.get k).simChild := by
    intro k
    rw [Tree.get_modify]
    split_ifs with hik
    · rw [(hf (t.get i)).2.2.2, hik.1]
    · rfl
  have hcol2 : ∀ k, ((t.modify i f).get k).colour = (t.get k).colour := by
    intro k
    rw [Tree.get_modify]
    split_ifs with hik
    · rw [(hf (t.get i)).2.1, hik.1]
    · rfl
  apply WF_intro
  intro j hj
  rw [Tree.size_modify] at hj
  have hs := WF_spec hw j
  rw [hbc2 j, hsc2 j, hcol2 j]
  refine ⟨?_, hs.2.1, ?_, ?_⟩
  · intro pr hpr
    have hold := hs.1 pr hpr
    rw [Tree.size_modify, haddr2 pr.2, hcol2 pr.2]
    exact hold
  · intro g hg
    have hold := hs.2.2.1 g hg
    rw [Tree.size_modify, hcol2 g]
    exact hold
  · exact hs.2.2.2

/-- The matching loop of `dye_siblings` keeps the arena well formed when all
candidate children are in range. -/
theorem WF_matchNodeStates :
    ∀ (cs : List Nat) (t : Tree) (st : SymState) (b : Bool) (t2 : Tree),
      matchNodeStates t st cs = some (b, t2) → WF t = true →
      (∀ c ∈ cs, c < t.size) → WF t2 = true := by
  intro cs
  induction cs with
  | nil =>
    intro t st b t2 h hw _
    simp only [matchNodeStates, Option.some.injEq, Prod.mk.injEq] at h
    rw [← h.2]
    exact hw
  | cons c rest ih =>
    intro t st b t2 h hw hlt
    unfold matchNodeStates at h
    split_ifs at h with haddr
    · cases hd : dye t c .R (some st) none with
      | none => rw [hd] at h; exact absurd h (by simp)
      | some t3 =>
        rw [hd] at h
        simp only [Option.map_some', Option.some.injEq, Prod.mk.injEq] at h
        rw [← h.2]
        exact WF_dye hd hw (hlt c (by simp))
          (fun hh => Colour.noConfusion hh)
    · exact ih t st b t2 h hw (fun x hx => hlt x (by simp [hx]))

/-- `add_phantom` keeps the arena well formed when the parent is in range and
not Gold. -/
theorem WF_addPhantom {t : Tree} {p : Nat} {st : SymState} {t2 : Tree}
    (h : addPhantom t p st = some t2) (hw : WF t = true) (hp : p < t.size)
    (hpg : (t.get p).colour ≠ .G) : WF t2 = true := by
  unfold addPhantom at h
  split_ifs at h with hlk
  dsimp only [] at h
  cases hd : dye ((t.push { addr := st.addr, parent := some p }).modify p
      (fun n => setChildKey n st.addr t.size)) t.size .R (some st) none with
  | none => rw [hd] at h; exact absurd h (by simp)
  | some t3 =>
    rw [hd] at h
    simp only [Option.map_some', Option.some.injEq] at h
    rw [← h]
    have hw1 : WF (t.push { addr := st.addr, parent := some p }) = true :=
      WF_push_fresh hw st.addr (some p)
    have hgp : (t.push { addr := st.addr, parent := some p }).get p =
        t.get p := by
      rw [Tree.get_push, if_neg (Nat.ne_of_lt hp)]
    have hgc : (t.push { addr := st.addr, parent := some p }).get t.size =
        { addr := st.addr, parent := some p } := by
      rw [Tree.get_push, if_pos rfl]
    have hw2 : WF ((t.push { addr := st.addr, parent := some p }).modify p
        (fun n => setChildKey n st.addr t.size)) = true := by
      apply WF_setChild_fresh hw1
      · rw [hgp]
        exact lookupChild_none_of_not_isSome hlk
      · rw [Tree.size_push]; omega
      · rw [hgc]
      · rw [hgc]
        exact fun hh => Colour.noConfusion hh
      · rw [hgp]
        exact hpg
    have hsize2 : ((t.push { addr := st.addr, parent := some p }).modify p
        (fun n => setChildKey n st.addr t.size)).size = t.size + 1 := by
      rw [Tree.size_modify, Tree.size_push]
    have hw3 : WF t3 = true :=
      WF_dye hd hw2 (by omega) (fun hh => Colour.noConfusion hh)
    exact WF_modify_inert t.size (fun n => { n with phantom := true })
      (fun m => ⟨rfl, rfl, rfl, rfl⟩) hw3

/-- The state-dyeing loop of the diverging branch keeps the arena well
formed. -/
theorem WF_dyeStates :
    ∀ (sts : List SymState) (p : Nat) (t : Tree) (t2 : Tree),
      dyeStates p t sts = some t2 → WF t = true → p < t.size →
      (t.get p).colour ≠ .G → WF t2 = true := by
  intro sts
  induction sts with
  | nil =>
    intro p t t2 h hw _ _
    simp only [dyeStates, Option.some.injEq] at h
    rw [← h]
    exact hw
  | cons st rest ih =>
    intro p t t2 h hw hp hpg
    unfold dyeStates at h
    cases hm : matchNodeStates t st (nonGoldChildren t p) with
    | none => rw [hm] at h; exact absurd h (by simp)
    | some pr =>
      rw [hm] at h
      obtain ⟨matched, t1⟩ := pr
      have hlt : ∀ c ∈ nonGoldChildren t p, c < t.size := by
        intro c hc
        exact childIds_lt hw p c (List.mem_filter.mp hc).1
      have hw1 : WF t1 = true := WF_matchNodeStates _ t st matched t1 hm hw hlt
      have hsz1 : t.size ≤ t1.size :=
        (matchNodeStates_preserves _ t st matched t1 hm).1
      have hpg1 : (t1.get p).colour ≠ .G := by
        rcases matchNodeStates_colour _ t st matched t1 hm p hp with he | hWR
        · rw [he]; exact hpg
        · rw [hWR.2]; exact fun hh => Colour.noConfusion hh
      cases hmatched : matched with
      | true =>
        rw [hmatched] at h
        simp only [if_true] at h
        exact ih p t1 t2 h hw1 (by omega) hpg1
      | false =>
        rw [hmatched] at h
        simp only [Bool.false_eq_true, if_false] at h
        cases hap : addPhantom t1 p st with
        | none => rw [hap] at h; exact absurd h (by simp)
        | some t1b =>
          rw [hap] at h
          have hw1b : WF t1b = true := WF_addPhantom hap hw1 (by omega) hpg1
          have hsz1b : t1.size ≤ t1b.size := (addPhantom_preserves hap).1
          have hpg1b : (t1b.get p).colour ≠ .G := by
            rw [addPhantom_colour hap p (by omega)]
            exact hpg1
          exact ih p t1b t2 h hw1b (by omega) hpg1b

/-! ### Claim C4: the special values of `score` -/

/-- Claim C4: `score()` returns the spec's special values: `−∞` for every
fully-explored node; `+∞` for every non-fully-explored node with
`sel_try == 0`; and `+∞` for the root when it is not fully explored. -/
theorem legion_c4 (maxS minS : ℕ) (tc : ℝ) (t : Tree) (i : ℕ) :
    ((t.get i).fully_explored = true → score maxS minS tc t i = ⊥) ∧
    ((t.get i).fully_explored = false → (t.get i).sel_try = 0 →
      score maxS minS tc t i = ⊤) ∧
    ((t.get i).fully_explored = false → (t.get i).parent = none →
      score maxS minS tc t i = ⊤) := by
  refine ⟨?_, ?_, ?_⟩
  · intro h; simp [score, h]
  · intro h1 h2; simp [score, h1, h2]
  · intro h1 h2
    by_cases hs : (t.get i).sel_try = 0
    · simp [score, h1, hs]
    · simp [score, h1, hs, h2]

/-- A three-node tree exercising all three special cases of `score`:
a non-fully-explored root, a fully explored black child, and an unvisited
white child. -/
def tScore : Tree := ⟨[
  { addr := 0, colour := .R, sel_try := 2 },
  { addr := 1, parent := some 0, colour := .B, sel_try := 1,
    fully_explored := true },
  { addr := 2, parent := some 0, colour := .W, sel_try := 0 }]⟩

theorem legion_c4_witness :
    score 100 5 0 tScore 1 = ⊥ ∧ score 100 5 0 tScore 2 = ⊤ ∧
    score 100 5 0 tScore 0 = ⊤ :=
  ⟨(legion_c4 100 5 0 tScore 1).1 (by rfl),
   (legion_c4 100 5 0 tScore 2).2.1 (by rfl) (by rfl),
   (legion_c4 100 5 0 tScore 0).2.2 (by rfl) (by rfl)⟩

/-! ### Claim C5: the average-solving-time divisor -/

/-- Claim C5 counterexample: the divisor actually computed by
`average_constraint_solving_time` is `ceil(log₂ MIN_SAMPLES + sel_try − 1)`
with no `max(1, ·)` applied; at `MIN_SAMPLES = 1`, `sel_try = 1` it is `0`
(a `ZeroDivisionError` in the source), not the claimed
`max(1, ⌈log₂ 1 + 1 − 1⌉) = 1`. -/
theorem legion_c5_counterexample :
    solveCount 1 1 = 0 ∧ solveCount 1 1 ≠ max 1 (solveCount 1 1) := by
  have h : solveCount 1 1 = 0 := by
    unfold solveCount; norm_num [Real.logb_one]
  rw [h]
  norm_num

/-- Claim C5 (amended): for `MIN_SAMPLES ≥ 2`, any node with `sel_try ≥ 1`
has average-time divisor `⌈log₂ MIN_SAMPLES + sel_try − 1⌉ ≥ 1`, and for
`MAX_SAMPLES ≥ 1` the expected-sample divisor is positive, so no division by
zero occurs. -/
theorem legion_c5 (minS selTry maxS : ℕ) (hm : 2 ≤ minS) (hs : 1 ≤ selTry)
    (hx : 1 ≤ maxS) :
    1 ≤ solveCount minS selTry ∧ 0 < expectedSampleNum maxS minS selTry := by
  constructor
  · have hl : 1 ≤ Real.logb 2 minS := by
      have h1 : Real.logb 2 2 ≤ Real.logb 2 minS := by
        apply Real.logb_le_logb_of_le (by norm_num) (by norm_num)
        exact_mod_cast hm
      rwa [Real.logb_self_eq_one (by norm_num)] at h1
    have hst : (1 : ℝ) ≤ (selTry : ℝ) := by exact_mod_cast hs
    have harg : (0 : ℝ) < Real.logb 2 minS + (selTry : ℝ) - 1 := by linarith
    have := (Int.ceil_pos (a := Real.logb 2 minS + (selTry : ℝ) - 1)).mpr harg
    unfold solveCount
    omega
  · unfold expectedSampleNum
    exact lt_min hx (Nat.mul_pos (by omega) (pow_pos (by norm_num) selTry))

theorem legion_c5_witness :
    1 ≤ solveCount 5 1 ∧ 0 < expectedSampleNum 100 5 1 :=
  legion_c5 5 1 100 (by norm_num) (by norm_num) (by norm_num)

/-! ### Claim C7: early stop of the simulation batch -/

/-- A concrete execution oracle: input `[0]` exits with the bug return code
`100` and traces `[0]`; every other input exits `0` and traces `[0, 1]`. -/
def oracleBug : List Nat → Int × List Int :=
  fun inp => if inp = [0] then (100, [0]) else (0, [0, 1])

/-- Claim C7 counterexample: with coverage-only mode ON, a batch of two
inputs whose first triggers the bug still stops early — the comprehension
guard `if not FOUND_BUG` never consults `COVERAGE_ONLY`, so only one trace is
collected instead of the claimed two. -/
theorem legion_c7_counterexample :
    simulationBatch oracleBug 100 true false [[0], [1]] = (true, [[0]]) ∧
    (simulationBatch oracleBug 100 true false [[0], [1]]).2.length ≠ 2 := by
  constructor <;> decide

lemma simulationBatch_found (o : List Nat → Int × List Int) (br : Int)
    (c : Bool) (ms : List (List Nat)) :
    simulationBatch o br c true ms = (true, []) := by
  induction ms with
  | nil => rfl
  | cons m rest ih => simp [simulationBatch, ih]

/-- Claim C7 (amended): when an executed input returns the bug code,
`FOUND_BUG` is set and all remaining inputs of the batch are skipped
regardless of coverage-only mode; `COVERAGE_ONLY` does not influence the
batch loop at all (it only gates further rounds in `has_budget`). -/
theorem legion_c7 :
    (∀ (o : List Nat → Int × List Int) (br : Int) (fb : Bool)
        (ms : List (List Nat)) (c₁ c₂ : Bool),
      simulationBatch o br c₁ fb ms = simulationBatch o br c₂ fb ms) ∧
    (∀ (o : List Nat → Int × List Int) (br : Int) (c : Bool)
        (ms : List (List Nat)),
      simulationBatch o br c true ms = (true, [])) ∧
    (∀ (o : List Nat → Int × List Int) (br : Int) (c : Bool) (m : List Nat)
        (ms : List (List Nat)), (o m).1 = br →
      simulationBatch o br c false (m :: ms) = (true, [(o m).2])) := by
  refine ⟨?_, fun o br c ms => simulationBatch_found o br c ms, ?_⟩
  · intro o br fb ms
    induction ms generalizing fb with
    | nil => intro c₁ c₂; rfl
    | cons m rest ih =>
      intro c₁ c₂
      by_cases hfb : fb
      · subst hfb
        simp [simulationBatch, ih true c₁ c₂]
      · simp only [Bool.not_eq_true] at hfb
        subst hfb
        simp only [simulationBatch, Bool.false_eq_true, if_false]
        rw [ih _ c₁ c₂]
  · intro o br c m ms h
    simp [simulationBatch, binaryExecute, h, simulationBatch_found]

theorem legion_c7_witness :
    simulationBatch oracleBug 100 false false [[0], [7]] =
      (true, [(oracleBug [0]).2]) :=
  legion_c7.2.2 oracleBug 100 false [0] [[7]] (by decide)

/-! ### Claim C8: decoding of the trace stream -/

/-- Modelled from the spec: the claim's reading of the trace stream, in which
the i-th element is the UNSIGNED little-endian value of bytes `8i..8i+7`. -/
def unsignedWords (bs : List Nat) : List Nat :=
  (List.range (bs.length / 8)).map (fun i => uleValue ((bs.drop (8 * i)).take 8))

/-- Claim C8 counterexample: on the 8-byte stderr `ff ff ff ff ff ff ff ff`
the source (`struct.unpack_from('q', ...)`, SIGNED 64-bit) yields `−1`,
whereas the claim's unsigned reading yields `2⁶⁴ − 1`. -/
theorem legion_c8_counterexample :
    unpack (List.replicate 8 255) = some [-1] ∧
    unsignedWords (List.replicate 8 255) = [2 ^ 64 - 1] ∧
    ((-1 : Int) ≠ ((2 : Int) ^ 64 - 1)) := by
  refine ⟨by decide, by decide, by decide⟩

/-- Claim C8 (amended): `unpack` decodes stderr as a concatenation of 64-bit
little-endian SIGNED (two's-complement) integers — the i-th element is
`toSigned64` of the unsigned little-endian value of bytes `8i..8i+7` — and
rejects any length not divisible by 8. -/
theorem legion_c8 (bs : List Nat) :
    (bs.length % 8 = 0 →
      unpack bs = some ((unsignedWords bs).map toSigned64)) ∧
    (bs.length % 8 ≠ 0 → unpack bs = none) := by
  constructor
  · intro h
    simp [unpack, h, unsignedWords, List.map_map]
    intro a _
    rfl
  · intro h
    simp [unpack, h]

theorem legion_c8_witness :
    (unpack [0, 1, 0, 0, 0, 0, 0, 0] =
      some ((unsignedWords [0, 1, 0, 0, 0, 0, 0, 0]).map toSigned64)) ∧
    unpack [1, 2, 3] = none :=
  ⟨(legion_c8 [0, 1, 0, 0, 0, 0, 0, 0]).1 (by decide),
   (legion_c8 [1, 2, 3]).2 (by decide)⟩

/-! ### Claim C1: the colouring protocol `dye_siblings` -/

/-- Claim C1 (amended): after `dye_siblings` completes for a White node `w`
with parent `p`, the outcome follows the stopping case of `symex_to_match`.
With an empty successor set `w` stays White and is only marked
`fully_explored`; with a single successor `w` is dyed Black; with a diverging
successor set every non-Gold child of `p` (each of which corresponds to one
of the matched successor states, per the final assertion of the loop) is Red,
`w` itself is Red, the arena stays well formed, and no two block children of
`p` share an address (their keys are duplicate-free and each child is
registered under its own address). -/
theorem legion_c1 {symex : SymState → List SymState} {fuel : Nat}
    {t t2 : Tree} {w p : Nat}
    (hw : WF t = true) (hwlt : w < t.size) (hplt : p < t.size)
    (hcol : (t.get w).colour = .W) (hpar : (t.get w).parent = some p)
    (hlink : lookupChild (t.get p) ((t.get w).addr) = some w)
    (h : dyeSiblings symex fuel t w = some t2) :
    ∃ sib, symexToMatch symex fuel t w = some sib ∧
      (sib = [] →
        (t2.get w).colour = .W ∧ (t2.get w).fully_explored = true) ∧
      (∀ st, sib = [st] → (t2.get w).colour = .B) ∧
      (1 < sib.length →
        (∀ c ∈ nonGoldChildren t2 p, (t2.get c).colour = .R) ∧
        (t2.get w).colour = .R ∧ WF t2 = true ∧
        ((t2.get p).blockChildren.map (fun pr => pr.1)).Nodup ∧
        ∀ pr ∈ (t2.get p).blockChildren, (t2.get pr.2).addr = pr.1) := by
  obtain ⟨sib, hsx, hcase⟩ := dyeSiblings_cases h
  refine ⟨sib, hsx, ?_, ?_, ?_⟩
  · intro hnil
    rcases hcase with ⟨_, he⟩ | ⟨st, hst, _⟩ | ⟨hlen, _⟩
    · unfold dyeEmpty at he
      dsimp only [] at he
      have hparf :
          ((t.modify w (fun n => { n with fully_explored := true })).get
            w).parent = some p := by
        rw [Tree.get_modify, if_pos ⟨rfl, hwlt⟩]
        exact hpar
      rw [hparf] at he
      dsimp only [] at he
      have hfe := FEonly.of_markFE fuel he
      constructor
      · rw [hfe.colour_eq w, Tree.get_modify, if_pos ⟨rfl, hwlt⟩]
        exact hcol
      · apply hfe.fe_mono
        rw [Tree.get_modify, if_pos ⟨rfl, hwlt⟩]
    · rw [hst] at hnil
      exact absurd hnil (by simp)
    · rw [hnil] at hlen
      simp at hlen
  · intro st hst
    rcases hcase with ⟨hnil, _⟩ | ⟨st2, hst2, hs⟩ | ⟨hlen, _⟩
    · rw [hnil] at hst
      exact absurd hst (by simp)
    · unfold dyeSingle at hs
      split_ifs at hs with haddr
      exact (dye_changes hs hwlt).2.1 (Or.inr rfl)
    · rw [hst] at hlen
      simp at hlen
  · intro hlen
    rcases hcase with ⟨hnil, _⟩ | ⟨st, hst, _⟩ | ⟨_, hd⟩
    · rw [hnil] at hlen
      simp at hlen
    · rw [hst] at hlen
      simp at hlen
    · unfold dyeDiverge at hd
      rw [hpar] at hd
      dsimp only [] at hd
      cases hds : dyeStates p t sib with
      | none => rw [hds] at hd; exact absurd hd (by simp)
      | some t3 =>
        rw [hds] at hd
        dsimp only [] at hd
        split_ifs at hd with hall
        have h32 : t3 = t2 := Option.some.inj hd
        subst h32
        have hallP : ∀ c ∈ nonGoldChildren t3 p, (t3.get c).colour = .R := by
          intro c hc
          have := List.all_eq_true.mp hall c hc
          simpa using this
        have hpres := dyeStates_preserves sib p t t3 hds
        have hmem0 : ((t.get w).addr, w) ∈ (t.get p).blockChildren :=
          lookupChild_mem hlink
        have hmem1 : ((t.get w).addr, w) ∈ (t3.get p).blockChildren :=
          hpres.2.2.1 p hplt _ hmem0
        have hmemC : w ∈ childIds (t3.get p) := by
          unfold childIds
          exact List.mem_append_left _ (List.mem_map.mpr ⟨_, hmem1, rfl⟩)
        have hwNG : (t3.get w).colour ≠ .G := by
          rcases dyeStates_colour sib p t t3 hds w hwlt with he | hWR
          · rw [he, hcol]
            exact fun hh => Colour.noConfusion hh
          · rw [hWR.2]
            exact fun hh => Colour.noConfusion hh
        have hmemF : w ∈ nonGoldChildren t3 p := by
          unfold nonGoldChildren
          exact List.mem_filter.mpr ⟨hmemC, by simpa using hwNG⟩
        have hwf3 : WF t3 = true :=
          WF_dyeStates sib p t t3 hds hw hplt (parent_not_gold hw hlink)
        refine ⟨hallP, hallP w hmemF, hwf3, (WF_spec hwf3 p).2.1, ?_⟩
        intro pr hpr
        exact ((WF_spec hwf3 p).1 pr hpr).2.1

/-- A symbolic step with no successor, for the program-end stopping case. -/
def symexE : SymState → List SymState := fun _ => []

/-- A symbolic step that diverges at the root block into two successors. -/
def symexD : SymState → List SymState :=
  fun s => if s.addr = 0 then [{ addr := 1 }, { addr := 2 }] else []

/-- The tree `dye_siblings` produces from `tC` when symbolic execution finds
no successor: node 2 keeps its White colour and only gains the
`fully_explored` flag. -/
def tCE : Tree := ⟨[
  { addr := 0, colour := .R, blockChildren := [(1, 2)], simChild := some 1 },
  { addr := 0, parent := some 0, colour := .G, state := some { addr := 0 } },
  { addr := 1, parent := some 0, colour := .W, fully_explored := true }]⟩

/-- Claim C1 counterexample: the original claim promises a non-White colour
for `w` in all three stopping cases, but in the empty-successor case the code
only sets `fully_explored` and `w` stays White. -/
theorem legion_c1_counterexample :
    dyeSiblings symexE 5 tC 2 = some tCE ∧
    (tCE.get 2).colour = .W ∧ (tCE.get 2).fully_explored = true :=
  ⟨by decide, by decide, by decide⟩

/-- The tree `dye_siblings` produces from `tC` under `symexD`: node 2 is dyed
Red with a fresh Gold child, and the second successor becomes a Red phantom
(node 4) with its own Gold child. -/
def tCD : Tree := ⟨[
  { addr := 0, colour := .R, blockChildren := [(1, 2), (2, 4)],
    simChild := some 1 },
  { addr := 0, parent := some 0, colour := .G, state := some { addr := 0 } },
  { addr := 1, parent := some 0, colour := .R, simChild := some 3 },
  { addr := 1, parent := some 2, colour := .G, state := some { addr := 1 } },
  { addr := 2, parent := some 0, colour := .R, simChild := some 5,
    phantom := true },
  { addr := 2, parent := some 4, colour := .G, state := some { addr := 2 } }]⟩

theorem legion_c1_witness :
    ∃ sib, symexToMatch symexD 5 tC 2 = some sib ∧
      (sib = [] →
        (tCD.get 2).colour = .W ∧ (tCD.get 2).fully_explored = true) ∧
      (∀ st, sib = [st] → (tCD.get 2).colour = .B) ∧
      (1 < sib.length →
        (∀ c ∈ nonGoldChildren tCD 0, (tCD.get c).colour = .R) ∧
        (tCD.get 2).colour = .R ∧ WF tCD = true ∧
        ((tCD.get 0).blockChildren.map (fun pr => pr.1)).Nodup ∧
        ∀ pr ∈ (tCD.get 0).blockChildren, (tCD.get pr.2).addr = pr.1) :=
  legion_c1 (by decide) (by decide) (by decide) (by decide) (by decide)
    (by decide) (by decide)

end Legion
